import Mathlib

/-!
# Autonomous-Rover: imaging module (dynamic lookahead) and controller module

A shallow embedding of `src/Imaging Module/Dynamic-Lookahead.go` and
`src/Controller Module/main.go`, followed by theorems about the embedded code.

Conventions of the embedding:

* Go `int` is `Int`.  Every integer met here is a row or column index of a camera
  frame (at most a few hundred, plus the constants 10 and 20), far away from the
  64-bit wrap-around.
* Go `uint8` flags (`start`, `inCurves`, `curveStart`) are `Nat`; the code only ever
  stores 0 or 1 in them.
* A `gocv.Mat` of bytes is its dimensions together with the sample function read by
  `GetVecbAt(row, col)[0]`.
* `float32` values are dyadic numbers `mant * 2 ^ exp`, every operation rounding its
  exact result to a 24-bit significand (nearest, ties to even).
-/

namespace Imaging

/-! ## Data model -/

/-- A single-channel 8-bit `gocv.Mat`: `GetVecbAt r c` is `GetVecbAt(r, c)[0]`. -/
structure Mat where
  Rows : Int
  Cols : Int
  GetVecbAt : Int → Int → Nat

/-- The sub-matrix `buf.Region(image.Rect(x0, y0, x1, y1))`. -/
def Mat.Region (buf : Mat) (x0 y0 x1 y1 : Int) : Mat :=
  { Rows := y1 - y0
    Cols := x1 - x0
    GetVecbAt := fun r c => buf.GetVecbAt (y0 + r) (x0 + c) }

/-- `SliceDescriptor` of the source: first and last index of a run. -/
structure SliceDescriptor where
  Start : Int
  End : Int
deriving DecidableEq, Repr

/-! ## binary32 arithmetic -/

/-- A finite `float32` value `mant * 2 ^ exp` (exponent range not bounded: the values
of the ramp formula lie between 1 and 1024). -/
structure F32 where
  mant : Int
  exp : Int
deriving DecidableEq, Repr

/-- The real number an `F32` stands for. -/
def F32.toRat (x : F32) : ℚ := (x.mant : ℚ) * (2 : ℚ) ^ x.exp

/-- Number of low-order bits of `n` that do not fit a 24-bit significand. -/
def dropBits : Nat → Nat → Nat
  | 0, _ => 0
  | fuel + 1, n => if n < 16777216 then 0 else dropBits fuel (n / 2) + 1

/-- Round a magnitude to 24 significant bits, nearest with ties to even; the result is
the kept significand and the number of dropped bits. -/
def roundSig24 (n : Nat) : Nat × Nat :=
  let s := dropBits n n
  let q := n / 2 ^ s
  let r := n % 2 ^ s
  if 2 ^ s < 2 * r ∨ (2 * r = 2 ^ s ∧ q % 2 = 1) then (q + 1, s) else (q, s)

/-- Rounding of the exact value `m * 2 ^ e` to `float32`. -/
def F32.round (m e : Int) : F32 :=
  let p := roundSig24 m.natAbs
  { mant := if m < 0 then -(p.1 : Int) else (p.1 : Int), exp := e + (p.2 : Int) }

/-- The conversion `float32(i)` of an `int`. -/
def F32.ofInt (i : Int) : F32 := F32.round i 0

/-- The `float32` product. -/
def F32.mul (x y : F32) : F32 := F32.round (x.mant * y.mant) (x.exp + y.exp)

/-- The exact difference of two dyadic numbers, as significand and exponent. -/
def exactSub (m1 e1 m2 e2 : Int) : Int × Int :=
  let e := min e1 e2
  (m1 * 2 ^ (e1 - e).toNat - m2 * 2 ^ (e2 - e).toNat, e)

/-- The `float32` difference. -/
def F32.sub (x y : F32) : F32 :=
  let d := exactSub x.mant x.exp y.mant y.exp
  F32.round d.1 d.2

/-- The fused `x * y - z`, rounded once. -/
def F32.fmsub (x y z : F32) : F32 :=
  let d := exactSub (x.mant * y.mant) (x.exp + y.exp) z.mant z.exp
  F32.round d.1 d.2

/-- The conversion `int(x)` of a `float32`: truncation toward zero. -/
def F32.toInt (x : F32) : Int :=
  if 0 ≤ x.exp then x.mant * 2 ^ x.exp.toNat else Int.tdiv x.mant (2 ^ (-x.exp).toNat)

/-- The constant `3.4` as a `float32`: `14260634 / 2 ^ 22`, the 24-bit significand
nearest to 3.4. -/
def f32_3_4 : F32 := { mant := 14260634, exp := -22 }

/-- The expression `int((3.4 * float32(b)) - float32(100))` of the ramp.  The Go
specification lets a compiler fuse `x*y - z` into one operation with a single
rounding; `fma` selects that evaluation. -/
def rampFormula (fma : Bool) (b : Int) : Int :=
  if fma then F32.toInt (F32.fmsub f32_3_4 (F32.ofInt b) (F32.ofInt 100))
  else F32.toInt (F32.sub (F32.mul f32_3_4 (F32.ofInt b)) (F32.ofInt 100))

/-! ## The frame loop of `run`: lookahead state -/

/-- The loop-carried variables of `run`. -/
structure LoopState where
  start : Nat
  prevDetectedBoundary : Int
  currDetectedBoundary : Int
  inCurves : Nat
  curveStart : Nat
  rowIndex : Int
deriving DecidableEq, Repr

def cruisingLookahead : Int := 240
def inCurveBoundaryThreshold : Int := 200
def lowerLimitFormula : Int := 100
def upperLimitFormula : Int := 170
def outOfCurve_DistanceThreshold : Int := 150

/-- The values of the variables before the first frame. -/
def LoopState.init : LoopState :=
  { start := 1, prevDetectedBoundary := 0, currDetectedBoundary := 0,
    inCurves := 0, curveStart := 0, rowIndex := 0 }

/-- The cruising branch (`inCurves == 0`) of the row selection. -/
def cruisingBranch (fma : Bool) (imgHeight : Int) (s : LoopState) : LoopState :=
  if s.currDetectedBoundary ≥ inCurveBoundaryThreshold then
    { s with rowIndex := s.currDetectedBoundary, inCurves := 1, curveStart := 1 }
  else if s.currDetectedBoundary > lowerLimitFormula
      ∧ s.currDetectedBoundary < inCurveBoundaryThreshold then
    if s.currDetectedBoundary ≤ upperLimitFormula then
      { s with rowIndex := rampFormula fma s.currDetectedBoundary }
    else
      { s with rowIndex := imgHeight - 2 }
  else
    { s with rowIndex := cruisingLookahead }

/-- The in-curve branch (`inCurves != 0`) of the row selection. -/
def inCurveBranch (s : LoopState) : LoopState :=
  let s1 : LoopState :=
    if s.rowIndex < s.currDetectedBoundary ∧ s.currDetectedBoundary ≤ cruisingLookahead then
      { s with rowIndex := s.currDetectedBoundary }
    else if s.currDetectedBoundary > s.prevDetectedBoundary + 20 then
      { s with rowIndex := s.currDetectedBoundary }
    else s
  let s2 : LoopState :=
    if s1.curveStart = 1 then
      if s1.currDetectedBoundary > s1.prevDetectedBoundary + 10 then
        { s1 with rowIndex := s1.currDetectedBoundary }
      else s1
    else s1
  let s3 : LoopState :=
    if s2.currDetectedBoundary < outOfCurve_DistanceThreshold then
      { s2 with inCurves := 0, rowIndex := cruisingLookahead }
    else s2
  { s3 with curveStart := 0 }

/-- The row selection of one frame: the `if inCurves == uint8(0) ... else ...`
statement of `run`, with `currDetectedBoundary` already assigned. -/
def selectRow (fma : Bool) (imgHeight : Int) (s : LoopState) : LoopState :=
  if s.inCurves = 0 then cruisingBranch fma imgHeight s else inCurveBranch s

/-- One frame of the lookahead state machine fed with the boundary estimate `b`:
assignment of `currDetectedBoundary`, row selection, then
`prevDetectedBoundary = currDetectedBoundary` and the clearing of `start`. -/
def lookaheadFrame (fma : Bool) (imgHeight : Int) (s : LoopState) (b : Int) : LoopState :=
  let t := selectRow fma imgHeight { s with currDetectedBoundary := b }
  { t with prevDetectedBoundary := t.currDetectedBoundary,
           start := if t.start = 1 then 0 else t.start }

/-- A run of frames with the given boundary estimates. -/
def lookaheadFrames (fma : Bool) (imgHeight : Int) (s : LoopState) (bs : List Int) : LoopState :=
  bs.foldl (lookaheadFrame fma imgHeight) s

/-! ## Row segmentation -/

/-- One iteration of the column loop of `getConsecutiveWhitePointsFromSlice`; the loop
variables are `res` and `currentConsecutive` (`none` is `nil`). -/
def scanColumn (imageSlice : Mat)
    (st : List SliceDescriptor × Option SliceDescriptor) (i : Nat) :
    List SliceDescriptor × Option SliceDescriptor :=
  let currentByte := imageSlice.GetVecbAt 0 i
  if currentByte ≠ 0 then
    match st.2 with
    | none => (st.1, some { Start := i, End := i })
    | some c => (st.1, some { c with End := i })
  else
    match st.2 with
    | some c => (if c.End - c.Start > 0 then st.1 ++ [c] else st.1, none)
    | none => (st.1, none)

/-- The loop `for i := 0; i < imageSlice.Cols()-1; i++` run to its end. -/
def scanColumns (imageSlice : Mat) (n : Nat) : List SliceDescriptor × Option SliceDescriptor :=
  (List.range n).foldl (scanColumn imageSlice) ([], none)

/-- `getConsecutiveWhitePointsFromSlice` of the source. -/
def getConsecutiveWhitePointsFromSlice (imageSlice : Mat) : List SliceDescriptor :=
  let st := scanColumns imageSlice (imageSlice.Cols - 1).toNat
  match st.2 with
  | some c => if c.End - c.Start > 0 then st.1 ++ [c] else st.1
  | none => st.1

/-- The body of the selection loop of `getLongestConsecutiveWhiteSlice`. -/
def longer (longest desc : SliceDescriptor) : SliceDescriptor :=
  if desc.End - desc.Start > longest.End - longest.Start then desc else longest

/-- `getLongestConsecutiveWhiteSlice` of the source (`none` is `nil`). -/
def getLongestConsecutiveWhiteSlice (sliceDescriptors : List SliceDescriptor) :
    Option SliceDescriptor :=
  match sliceDescriptors with
  | [] => none
  | first :: _ => some (sliceDescriptors.foldl longer first)

/-! ## Boundary tracking -/

/-- The loop of `verticalScanUp`, with `n = y + 1` rows left to look at; at `n = 0` the
loop has ended with `y = -1` and the function returns `y + 1`. -/
def verticalScanUpFrom (imageSlice : Mat) : Nat → Int
  | 0 => -1 + 1
  | n + 1 => if imageSlice.GetVecbAt n 0 = 0 then n else verticalScanUpFrom imageSlice n

/-- `verticalScanUp` of the source: the scan starts at `y = 479`. -/
def verticalScanUp (imageSlice : Mat) : Int := verticalScanUpFrom imageSlice 480

/-- The loop `for y + 2 <= 479` of `detectNewBoundary`; `fuel` bounds the iterations. -/
def searchDown (imageSlice : Mat) : Nat → Int → Int
  | 0, y => y
  | fuel + 1, y =>
    if y + 2 ≤ 479 then
      if imageSlice.GetVecbAt (y + 2) 0 = 255 then y + 2
      else searchDown imageSlice fuel (y + 2)
    else y

/-- The loop `for y - 2 >= 0` of `detectNewBoundary`; `fuel` bounds the iterations. -/
def searchUp (imageSlice : Mat) : Nat → Int → Int
  | 0, y => y
  | fuel + 1, y =>
    if y - 2 ≥ 0 then
      if imageSlice.GetVecbAt (y - 2) 0 = 0 then y - 2
      else searchUp imageSlice fuel (y - 2)
    else y

/-- `detectNewBoundary` of the source.  The distance to the end of the column bounds the
number of iterations of either loop, so the fuel never runs out. -/
def detectNewBoundary (imageSlice : Mat) (prevY : Int) : Int :=
  if imageSlice.GetVecbAt prevY 0 = 0 then
    searchDown imageSlice (479 - prevY).toNat prevY
  else
    searchUp imageSlice prevY.toNat prevY

/-- Repeated warm updates on an unchanged column. -/
def warmUpdates (imageSlice : Mat) : Nat → Int → Int
  | 0, y => y
  | n + 1, y => warmUpdates imageSlice n (detectNewBoundary imageSlice y)

/-! ## One iteration of the frame loop of `run` -/

/-- A point of the published trajectory (`uint32` coordinates). -/
structure TrajectoryPoint where
  X : Int
  Y : Int
deriving DecidableEq, Repr

/-- The conversion `uint32(i)` of an `int`. -/
def toUint32 (i : Int) : Int := i % 4294967296

/-- The column `(Start + End) / 2` of a run (Go division truncates). -/
def middleX (longestConsecutive : SliceDescriptor) : Int :=
  Int.tdiv (longestConsecutive.Start + longestConsecutive.End) 2

/-- The trajectory points published for the scanned row: none when no run was found
(the frame is skipped), otherwise the middle of the longest run. -/
def trajectoryPoints (horizontalSlice : Mat) (rowIndex : Int) : List TrajectoryPoint :=
  match getLongestConsecutiveWhiteSlice (getConsecutiveWhitePointsFromSlice horizontalSlice) with
  | none => []
  | some longestConsecutive =>
    [{ X := toUint32 (middleX longestConsecutive), Y := toUint32 rowIndex }]

/-- The boundary estimate of a frame: cold start on the first frame, warm update after. -/
def detectBoundary (buf : Mat) (s : LoopState) : Int :=
  let verticalSlice := buf.Region (Int.tdiv buf.Cols 2) 0 (Int.tdiv buf.Cols 2 + 1) buf.Rows
  if s.start = 1 then verticalScanUp verticalSlice
  else detectNewBoundary verticalSlice s.prevDetectedBoundary

/-- One iteration of the frame loop on the thresholded image `buf`: the new loop state
and the trajectory points sent. -/
def runFrame (fma : Bool) (buf : Mat) (s : LoopState) : LoopState × List TrajectoryPoint :=
  let t := lookaheadFrame fma buf.Rows s (detectBoundary buf s)
  let horizontalSlice := buf.Region 0 t.rowIndex buf.Cols (t.rowIndex + 1)
  (t, trajectoryPoints horizontalSlice t.rowIndex)

/-- A one-row image given by its samples. -/
def rowOfList (samples : List Nat) : Mat :=
  { Rows := 1, Cols := samples.length, GetVecbAt := fun _ c => samples.getD c.toNat 0 }

/-- A one-column, 480-row image given by its sample function. -/
def columnOf (sample : Int → Nat) : Mat :=
  { Rows := 480, Cols := 1, GetVecbAt := fun r _ => sample r }

/-- The 640-column row whose foreground columns are exactly 100..179 and 300..309. -/
def scenarioRow : Mat :=
  { Rows := 1, Cols := 640,
    GetVecbAt := fun _ c =>
      if (100 ≤ c ∧ c ≤ 179) ∨ (300 ≤ c ∧ c ≤ 309) then 255 else 0 }

/-- A 640-column row whose foreground columns are exactly 600..639, up to the right
edge. -/
def edgeRow : Mat :=
  { Rows := 1, Cols := 640, GetVecbAt := fun _ c => if 600 ≤ c ∧ c ≤ 639 then 255 else 0 }

/-- The column whose boundary is at row `R`: rows `0..R` background, rows below
foreground. -/
def boundaryColumn (R : Int) : Mat := columnOf (fun y => if y ≤ R then 0 else 255)

/-- A run lying left of column `k` whose columns `Start..End`, both ends included, are all
foreground, and which has at least two columns. -/
def IsForegroundRun (imageSlice : Mat) (k : Int) (d : SliceDescriptor) : Prop :=
  0 ≤ d.Start ∧ d.Start < d.End ∧ d.End < k
    ∧ ∀ c : Int, d.Start ≤ c → c ≤ d.End → imageSlice.GetVecbAt 0 c ≠ 0

/-! ## Bounds-checked reads -/

/-- The read `GetVecbAt(r, c)[0]` with its bounds made explicit: `none` when `(r, c)` is
not a sample of the matrix. -/
def Mat.read (m : Mat) (r c : Int) : Option Nat :=
  if 0 ≤ r ∧ r < m.Rows ∧ 0 ≤ c ∧ c < m.Cols then some (m.GetVecbAt r c) else none

/-- The loop of `verticalScanUp` with checked reads; `none` when a read falls outside the
matrix. -/
def verticalScanUpFromChecked (imageSlice : Mat) : Nat → Option Int
  | 0 => some (-1 + 1)
  | n + 1 =>
    match imageSlice.read n 0 with
    | none => none
    | some b => if b = 0 then some n else verticalScanUpFromChecked imageSlice n

/-- `verticalScanUp` with checked reads. -/
def verticalScanUpChecked (imageSlice : Mat) : Option Int :=
  verticalScanUpFromChecked imageSlice 480

/-- The downward loop of `detectNewBoundary` with checked reads. -/
def searchDownChecked (imageSlice : Mat) : Nat → Int → Option Int
  | 0, y => some y
  | fuel + 1, y =>
    if y + 2 ≤ 479 then
      match imageSlice.read (y + 2) 0 with
      | none => none
      | some b => if b = 255 then some (y + 2) else searchDownChecked imageSlice fuel (y + 2)
    else some y

/-- The upward loop of `detectNewBoundary` with checked reads. -/
def searchUpChecked (imageSlice : Mat) : Nat → Int → Option Int
  | 0, y => some y
  | fuel + 1, y =>
    if y - 2 ≥ 0 then
      match imageSlice.read (y - 2) 0 with
      | none => none
      | some b => if b = 0 then some (y - 2) else searchUpChecked imageSlice fuel (y - 2)
    else some y

/-- `detectNewBoundary` with checked reads; `none` when a read falls outside the matrix. -/
def detectNewBoundaryChecked (imageSlice : Mat) (prevY : Int) : Option Int :=
  match imageSlice.read prevY 0 with
  | none => none
  | some b =>
    if b = 0 then searchDownChecked imageSlice (479 - prevY).toNat prevY
    else searchUpChecked imageSlice prevY.toNat prevY

/-! ## Runs of frames and test images -/

/-- The loop state after a run of frames on the given thresholded images. -/
def runFrames (fma : Bool) (bufs : List Mat) (s : LoopState) : LoopState :=
  bufs.foldl (fun t buf => (runFrame fma buf t).1) s

/-- A 480-row column of background samples only. -/
def blackColumn : Mat := columnOf (fun _ => 0)

/-- A 480-row column of foreground samples only. -/
def whiteColumn : Mat := columnOf (fun _ => 255)

/-- A 640 x 480 image of background samples only. -/
def blackImage : Mat := { Rows := 480, Cols := 640, GetVecbAt := fun _ _ => 0 }

/-- The same centerline column as `blackImage` (column 320 is background) with every other
column foreground. -/
def centerLineImage : Mat :=
  { Rows := 480, Cols := 640, GetVecbAt := fun _ c => if c = 320 then 0 else 255 }

/-- Run `a` lies left of run `b` with a background column right after it: the column
`a.End + 1` is background and comes before `b.Start`. -/
def Separated (imageSlice : Mat) (a b : SliceDescriptor) : Prop :=
  a.End + 1 < b.Start ∧ imageSlice.GetVecbAt 0 (a.End + 1) = 0

end Imaging

namespace Controller

/-! ## The controller module

`float32` and `float64` quantities of the controller (gains, speed, PID state, steering
value) are idealised as rational numbers: rounding, infinities and NaN are outside this
model. -/

/-- `pid.ControllerConfig`: the three gains. -/
structure ControllerConfig where
  ProportionalGain : ℚ
  IntegralGain : ℚ
  DerivativeGain : ℚ
deriving DecidableEq

/-- `pid.ControllerState`: the mutable state of the PID controller. -/
structure ControllerState where
  ControlError : ℚ
  ControlErrorIntegral : ℚ
  ControlErrorDerivative : ℚ
  ControlSignal : ℚ
deriving DecidableEq

/-- `pid.Controller`. -/
structure PidController where
  Config : ControllerConfig
  State : ControllerState
deriving DecidableEq

/-- `pid.ControllerInput`, the sampling interval in seconds. -/
structure ControllerInput where
  ReferenceSignal : ℚ
  ActualSignal : ℚ
  SamplingInterval : ℚ

/-- Modelled from the spec: `Update` of the PID controller of the library
`go.einride.tech/pid`, whose code is not part of the sources.  The error is
`desiredX - actualX`, the integral accumulates `error * dt`, the derivative is
`(error - prevError) / dt`, and the output is the sum of the three terms weighted by the
gains of the configuration. -/
def PidController.Update (c : PidController) (input : ControllerInput) : PidController :=
  let previousError := c.State.ControlError
  let controlError := input.ReferenceSignal - input.ActualSignal
  let derivative := (controlError - previousError) / input.SamplingInterval
  let integral := c.State.ControlErrorIntegral + controlError * input.SamplingInterval
  { c with State :=
      { ControlError := controlError
        ControlErrorIntegral := integral
        ControlErrorDerivative := derivative
        ControlSignal := c.Config.ProportionalGain * controlError
          + c.Config.IntegralGain * integral
          + c.Config.DerivativeGain * derivative } }

/-- The variables of `run` that live across control cycles: the tuning variables shared
with the keyboard goroutine, the reference column and the PID controller.  `listening`
tells whether the keyboard goroutine is still in its loop. -/
structure RunState where
  kp : ℚ
  ki : ℚ
  kd : ℚ
  speed : ℚ
  desiredTrajectoryPoint : Int
  pidController : PidController
  listening : Bool
deriving DecidableEq

def speedIncrement : ℚ := 0.05
def kpIncrement : ℚ := 0.00005
def kdIncrement : ℚ := 0.0001

/-- The state of `run` when its loops start, from the tuning values read at startup. -/
def RunState.init (kp ki kd : ℚ) (desiredTrajectoryPoint : Int) : RunState :=
  { kp := kp, ki := ki, kd := kd, speed := 0.2
    desiredTrajectoryPoint := desiredTrajectoryPoint
    pidController :=
      { Config := { ProportionalGain := kp, IntegralGain := ki, DerivativeGain := kd }
        State := { ControlError := 0, ControlErrorIntegral := 0,
                   ControlErrorDerivative := 0, ControlSignal := 0 } }
    listening := true }

/-- What `keyboard.GetKey` returns: an error, or one of the keys the goroutine tells
apart. -/
inductive KeyEvent where
  | error
  | KeyArrowUp
  | KeyArrowDown
  | KeyEsc
  | KeyCtrlA
  | KeyCtrlS
  | KeyCtrlD
  | KeyCtrlH
  | other
deriving DecidableEq

/-- The first statement of a key handler of the keyboard goroutine: the store of the
incremented or decremented value into the variable shared with the control loop
(`speed += speedIncrement`, `kp -= kpIncrement`, ...); for the escape key, the `break`. -/
def keyStore (ev : KeyEvent) (s : RunState) : RunState :=
  match ev with
  | .error => s
  | .KeyArrowUp => { s with speed := s.speed + speedIncrement }
  | .KeyArrowDown => { s with speed := s.speed - speedIncrement }
  | .KeyEsc => { s with listening := false }
  | .KeyCtrlA => { s with kp := s.kp + kpIncrement }
  | .KeyCtrlS => { s with kp := s.kp - kpIncrement }
  | .KeyCtrlD => { s with kd := s.kd + kdIncrement }
  | .KeyCtrlH => { s with kd := s.kd - kdIncrement }
  | .other => s

/-- The second statement of a key handler: the `if` that stores the bound when the value
stored by the first statement has passed it (`if speed > 0.5 { speed = 0.5 }`, ...). -/
def keyClamp (ev : KeyEvent) (s : RunState) : RunState :=
  match ev with
  | .error => s
  | .KeyArrowUp => if s.speed > 0.5 then { s with speed := 0.5 } else s
  | .KeyArrowDown => if s.speed < 0 then { s with speed := 0 } else s
  | .KeyEsc => s
  | .KeyCtrlA => if s.kp > 1 then { s with kp := 1 } else s
  | .KeyCtrlS => if s.kp < 0 then { s with kp := 0 } else s
  | .KeyCtrlD => if s.kd > 1 then { s with kd := 1 } else s
  | .KeyCtrlH => if s.kd < 0 then { s with kd := 0 } else s
  | .other => s

/-- One whole iteration of the keyboard goroutine, its two stores run one after the other
with no control cycle in between. -/
def keyPress (ev : KeyEvent) (s : RunState) : RunState :=
  if s.listening then keyClamp ev (keyStore ev s) else s

/-- A trajectory point of the received message (`uint32` coordinates). -/
structure Point where
  X : Nat
  Y : Nat
deriving DecidableEq

/-- The trajectory of the received message. -/
structure Trajectory where
  Points : List Point
deriving DecidableEq

/-- The camera output of the received message; `GetTrajectory` may be `nil`. -/
structure CameraSensorOutput where
  Trajectory : Option Trajectory
deriving DecidableEq

/-- The received bytes as seen by the control loop: `proto.Unmarshal` fails, or it
yields a sensor output whose camera output may be `nil`. -/
inductive Received where
  | unmarshalError
  | sensorOutput (cameraOutput : Option CameraSensorOutput)
deriving DecidableEq

/-- `pb_outputs.ControllerOutput`, the actuator command. -/
structure ControllerOutput where
  SteeringAngle : ℚ
  LeftThrottle : ℚ
  RightThrottle : ℚ
  FrontLights : Bool
deriving DecidableEq

/-- The `min-max` statement of the control loop. -/
def minMax (steerValue : ℚ) : ℚ :=
  if steerValue > 1 then 1 else if steerValue < -1 then -1 else steerValue

/-- The steering value sent: the `min-max` statement followed by the sign inversion
`steerValue = -steerValue`. -/
def steerCommand (controlSignal : ℚ) : ℚ := -(minMax controlSignal)

/-- The part of a control cycle that follows the checks of the message: PID update with
the first point, clamping, inversion and the controller output built from it. -/
def steer (s : RunState) (firstPoint : Point) : RunState × Option ControllerOutput :=
  let pidController := s.pidController.Update
    { ReferenceSignal := (s.desiredTrajectoryPoint : ℚ)
      ActualSignal := (firstPoint.X : ℚ)
      SamplingInterval := 0.1 }
  ({ s with pidController := pidController },
   some { SteeringAngle := steerCommand pidController.State.ControlSignal
          LeftThrottle := s.speed
          RightThrottle := s.speed
          FrontLights := false })

/-- One iteration of the main loop of `run` on a received message: the new state and the
controller output handed to the transport, if any (`none` where the loop `continue`s). -/
def controlCycle (s : RunState) (received : Received) : RunState × Option ControllerOutput :=
  match received with
  | .unmarshalError => (s, none)
  | .sensorOutput none => (s, none)
  | .sensorOutput (some imagingData) =>
    match imagingData.Trajectory with
    | none => (s, none)
    | some trajectory =>
      match trajectory.Points with
      | [] => (s, none)
      | firstPoint :: _ => steer s firstPoint

/-- The raw PID output as the specification words it, for the state `s` and the received
column `x`: `kp * e + ki * (accumulated e * dt) + kd * (e - prevError) / dt` with
`e = desiredX - x` and `dt = 0.1`. -/
def specPidOutput (s : RunState) (x : Nat) : ℚ :=
  s.pidController.Config.ProportionalGain * ((s.desiredTrajectoryPoint : ℚ) - (x : ℚ))
  + s.pidController.Config.IntegralGain
      * (s.pidController.State.ControlErrorIntegral
          + ((s.desiredTrajectoryPoint : ℚ) - (x : ℚ)) * 0.1)
  + s.pidController.Config.DerivativeGain
      * ((((s.desiredTrajectoryPoint : ℚ) - (x : ℚ)) - s.pidController.State.ControlError) / 0.1)

/-- A well-formed message whose first trajectory point has column `x`. -/
def targetMessage (x : Nat) : Received :=
  .sensorOutput (some { Trajectory := some { Points := [{ X := x, Y := 240 }] } })

end Controller

namespace Imaging

/-! ## Theorems: the ramp formula -/

/-- The significand chosen for 3.4 is within half a unit in the last place of 3.4. -/
theorem f32_3_4_nearest : |F32.toRat f32_3_4 - 3.4| ≤ (2 : ℚ) ^ (-23 : Int) := by
  unfold F32.toRat f32_3_4
  rw [abs_le]
  norm_num

/-- On the ramp the single-precision evaluation, fused or not, is `(17 * b - 500) / 5`. -/
theorem rampFormula_eq (fma : Bool) (b : Int) (h1 : 100 < b) (h2 : b ≤ 170) :
    rampFormula fma b = (17 * b - 500) / 5 := by
  have key : ∀ n : Nat, n < 70 →
      rampFormula false (101 + (n : Int)) = (17 * (101 + (n : Int)) - 500) / 5
      ∧ rampFormula true (101 + (n : Int)) = (17 * (101 + (n : Int)) - 500) / 5 := by
    decide
  obtain ⟨n, hn⟩ : ∃ n : Nat, b = 101 + (n : Int) := ⟨(b - 101).toNat, by omega⟩
  have hlt : n < 70 := by omega
  subst hn
  cases fma
  · exact (key n hlt).1
  · exact (key n hlt).2

/-- The integer quotient `(17 * b - 500) / 5` is the floor of the exact `3.4 * b - 100`. -/
theorem ramp_floor (b : Int) : ⌊(3.4 : ℚ) * (b : ℚ) - 100⌋ = (17 * b - 500) / 5 := by
  rw [Int.floor_eq_iff]
  have h := Int.emod_add_ediv (17 * b - 500) 5
  have h0 := Int.emod_nonneg (17 * b - 500) (by norm_num : (5 : Int) ≠ 0)
  have h5 := Int.emod_lt_of_pos (17 * b - 500) (by norm_num : (0 : Int) < 5)
  have hq : ((17 * b - 500 : Int) : ℚ)
      = (((17 * b - 500) % 5 : Int) : ℚ) + 5 * (((17 * b - 500) / 5 : Int) : ℚ) := by
    exact_mod_cast h.symm
  have h0q : (0 : ℚ) ≤ (((17 * b - 500) % 5 : Int) : ℚ) := by exact_mod_cast h0
  have h5q : (((17 * b - 500) % 5 : Int) : ℚ) < 5 := by exact_mod_cast h5
  push_cast at hq
  constructor <;> norm_num <;> linarith

/-! ## Theorems: the lookahead state machine -/

/-- The frame function on a CRUISING state, field by field. -/
theorem lookaheadFrame_cruising (fma : Bool) (h : Int) (s : LoopState) (b : Int)
    (hc : s.inCurves = 0) :
    (lookaheadFrame fma h s b).inCurves = (if 200 ≤ b then 1 else 0)
    ∧ (lookaheadFrame fma h s b).curveStart = (if 200 ≤ b then 1 else s.curveStart)
    ∧ (lookaheadFrame fma h s b).prevDetectedBoundary = b
    ∧ (lookaheadFrame fma h s b).rowIndex =
        (if 200 ≤ b then b else if 100 < b then
          (if b ≤ 170 then rampFormula fma b else h - 2) else 240) := by
  simp only [lookaheadFrame, selectRow, hc, cruisingBranch, inCurveBoundaryThreshold,
    lowerLimitFormula, upperLimitFormula, cruisingLookahead, if_true, ge_iff_le, gt_iff_lt]
  by_cases h1 : 200 ≤ b
  · simp [h1]
  · by_cases h2 : 100 < b
    · have h3 : b < 200 := by omega
      by_cases h4 : b ≤ 170 <;> simp [h1, h2, h3, h4]
    · simp [h1, h2]

/-- The frame function on an IN_CURVE state, field by field. -/
theorem lookaheadFrame_inCurve (fma : Bool) (h : Int) (s : LoopState) (b : Int)
    (hc : s.inCurves = 1) :
    (lookaheadFrame fma h s b).inCurves = (if b < 150 then 0 else 1)
    ∧ (lookaheadFrame fma h s b).curveStart = 0
    ∧ (lookaheadFrame fma h s b).prevDetectedBoundary = b
    ∧ (lookaheadFrame fma h s b).rowIndex =
        (if b < 150 then 240
         else if (s.rowIndex < b ∧ b ≤ 240) ∨ s.prevDetectedBoundary + 20 < b
              ∨ (s.curveStart = 1 ∧ s.prevDetectedBoundary + 10 < b) then b
         else s.rowIndex) := by
  simp only [lookaheadFrame, selectRow, hc, inCurveBranch, outOfCurve_DistanceThreshold,
    cruisingLookahead, gt_iff_lt]
  by_cases h1 : b < 150 <;> by_cases h2 : s.rowIndex < b ∧ b ≤ 240
    <;> by_cases h3 : s.prevDetectedBoundary + 20 < b
    <;> by_cases h4 : s.curveStart = 1
    <;> by_cases h5 : s.prevDetectedBoundary + 10 < b
    <;> simp [h1, h2, h3, h4, h5]

/-- C1: one frame taken in state CRUISING (`inCurves = 0`) on a 480-row image.  A boundary
`B ≥ 200` enters IN_CURVE with `curveStart` set and row `B`; for `100 < B ≤ 170` the state
stays CRUISING and the row is `⌊3.4 * B - 100⌋`, at most 478; for `170 < B < 200` the row is
478; for `B ≤ 100` the row is 240.  In particular `B = 50` gives row 240, and `B = 210` after
a frame with `B = 150` gives IN_CURVE, `curveStart` set, row 210.  This holds for the
separately rounded and for the fused evaluation of the single-precision ramp formula. -/
theorem cruising_frame (fma : Bool) (s : LoopState) (B : Int) (hc : s.inCurves = 0) :
    (200 ≤ B → (lookaheadFrame fma 480 s B).inCurves = 1
        ∧ (lookaheadFrame fma 480 s B).curveStart = 1
        ∧ (lookaheadFrame fma 480 s B).rowIndex = B)
    ∧ (100 < B → B ≤ 170 → (lookaheadFrame fma 480 s B).inCurves = 0
        ∧ (lookaheadFrame fma 480 s B).rowIndex = ⌊(3.4 : ℚ) * (B : ℚ) - 100⌋
        ∧ (lookaheadFrame fma 480 s B).rowIndex ≤ 478)
    ∧ (170 < B → B < 200 → (lookaheadFrame fma 480 s B).inCurves = 0
        ∧ (lookaheadFrame fma 480 s B).rowIndex = 478)
    ∧ (B ≤ 100 → (lookaheadFrame fma 480 s B).inCurves = 0
        ∧ (lookaheadFrame fma 480 s B).rowIndex = 240)
    ∧ (lookaheadFrame fma 480 s 50).rowIndex = 240
    ∧ (lookaheadFrames fma 480 s [150, 210]).inCurves = 1
    ∧ (lookaheadFrames fma 480 s [150, 210]).curveStart = 1
    ∧ (lookaheadFrames fma 480 s [150, 210]).rowIndex = 210 := by
  obtain ⟨e1, e2, -, e4⟩ := lookaheadFrame_cruising fma 480 s B hc
  refine ⟨?_, ?_, ?_, ?_, ?_, ?_⟩
  · intro hB
    rw [e1, e2, e4]
    simp [hB]
  · intro h1 h2
    have h3 : ¬ 200 ≤ B := by omega
    rw [e1, e4, ramp_floor]
    simp only [h1, h2, h3, if_true, if_false, rampFormula_eq fma B h1 h2]
    refine ⟨trivial, trivial, ?_⟩
    omega
  · intro h1 h2
    have h3 : ¬ 200 ≤ B := by omega
    have h4 : 100 < B := by omega
    have h5 : ¬ B ≤ 170 := by omega
    rw [e1, e4]
    simp [h3, h4, h5]
  · intro h1
    have h3 : ¬ 200 ≤ B := by omega
    have h4 : ¬ 100 < B := by omega
    rw [e1, e4]
    simp [h3, h4]
  · rw [(lookaheadFrame_cruising fma 480 s 50 hc).2.2.2]
    simp
  · have hs : (lookaheadFrame fma 480 s 150).inCurves = 0 := by
      rw [(lookaheadFrame_cruising fma 480 s 150 hc).1]
      simp
    obtain ⟨f1, f2, -, f4⟩ :=
      lookaheadFrame_cruising fma 480 (lookaheadFrame fma 480 s 150) 210 hs
    simp only [lookaheadFrames, List.foldl_cons, List.foldl_nil]
    rw [f1, f2, f4]
    simp

/-- A concrete instance of `cruising_frame`: the state before the first frame, `B = 120`. -/
theorem cruising_frame_witness :
    LoopState.init.inCurves = 0
    ∧ (lookaheadFrame false 480 LoopState.init 120).rowIndex = 308
    ∧ (lookaheadFrame false 480 LoopState.init 50).rowIndex = 240 := by
  have h := cruising_frame false LoopState.init 120 rfl
  refine ⟨rfl, ?_, h.2.2.2.2.1⟩
  rw [(h.2.1 (by decide) (by decide)).2.1, ramp_floor]
  decide

/-- C2: one frame taken in state IN_CURVE (`inCurves = 1`) with current boundary `B`,
previous boundary `prevDetectedBoundary`, held row `rowIndex` and flag `curveStart`.  The row
becomes `B` when `rowIndex < B ≤ 240`, or `B > prev + 20`, or `curveStart` is set and
`B > prev + 10`, and is held otherwise; after that `B < 150` returns to CRUISING with the row
forced to 240, and otherwise the state stays IN_CURVE; `curveStart` is cleared in every case. -/
theorem in_curve_frame (fma : Bool) (h : Int) (s : LoopState) (B : Int) (hc : s.inCurves = 1) :
    (B < 150 → (lookaheadFrame fma h s B).inCurves = 0
        ∧ (lookaheadFrame fma h s B).rowIndex = 240)
    ∧ (150 ≤ B → (lookaheadFrame fma h s B).inCurves = 1)
    ∧ (150 ≤ B → ((s.rowIndex < B ∧ B ≤ 240) ∨ B > s.prevDetectedBoundary + 20
          ∨ (s.curveStart = 1 ∧ B > s.prevDetectedBoundary + 10)) →
        (lookaheadFrame fma h s B).rowIndex = B)
    ∧ (150 ≤ B → ¬ ((s.rowIndex < B ∧ B ≤ 240) ∨ B > s.prevDetectedBoundary + 20
          ∨ (s.curveStart = 1 ∧ B > s.prevDetectedBoundary + 10)) →
        (lookaheadFrame fma h s B).rowIndex = s.rowIndex)
    ∧ (lookaheadFrame fma h s B).curveStart = 0 := by
  obtain ⟨e1, e2, -, e4⟩ := lookaheadFrame_inCurve fma h s B hc
  refine ⟨?_, ?_, ?_, ?_, e2⟩
  · intro hB
    rw [e1, e4]
    simp [hB]
  · intro hB
    have h1 : ¬ B < 150 := by omega
    rw [e1]
    simp [h1]
  · intro hB hcond
    have h1 : ¬ B < 150 := by omega
    rw [e4, if_neg h1, if_pos hcond]
  · intro hB hcond
    have h1 : ¬ B < 150 := by omega
    rw [e4, if_neg h1, if_neg hcond]

/-- A concrete instance of `in_curve_frame`: the entry frame of a curve (boundary 198 then
215, held row 198) re-anchors the row at 215 through the `curveStart` rule. -/
theorem in_curve_frame_witness :
    (lookaheadFrame false 480
      { start := 0, prevDetectedBoundary := 198, currDetectedBoundary := 198,
        inCurves := 1, curveStart := 1, rowIndex := 198 } 215).rowIndex = 215
    ∧ (lookaheadFrame false 480
      { start := 0, prevDetectedBoundary := 198, currDetectedBoundary := 198,
        inCurves := 1, curveStart := 1, rowIndex := 198 } 215).curveStart = 0 :=
  ⟨(in_curve_frame false 480 _ 215 rfl).2.2.1 (by decide) (by decide),
   (in_curve_frame false 480 _ 215 rfl).2.2.2.2⟩

/-- A run of frames with boundaries of at least 150 keeps an IN_CURVE state IN_CURVE. -/
theorem lookaheadFrames_stay (fma : Bool) (h : Int) (bs : List Int) :
    ∀ s : LoopState, s.inCurves = 1 → (∀ b ∈ bs, 150 ≤ b) →
      (lookaheadFrames fma h s bs).inCurves = 1 := by
  induction bs with
  | nil => intro s hs _; exact hs
  | cons b bs ih =>
    intro s hs hall
    have hb : ¬ b < 150 := by
      have := hall b (List.mem_cons_self b bs)
      omega
    have hnext : (lookaheadFrame fma h s b).inCurves = 1 := by
      rw [(lookaheadFrame_inCurve fma h s b hs).1]
      simp [hb]
    simpa [lookaheadFrames] using
      ih (lookaheadFrame fma h s b) hnext (fun x hx => hall x (List.mem_cons_of_mem b hx))

/-- C3: hysteresis.  When a CRUISING state meets a boundary `B0 ≥ 200` the selector is
IN_CURVE, and it is still IN_CURVE after every following run of frames whose boundaries are
all at least 150 (anywhere in 150..199 included); from IN_CURVE a frame leads back to
CRUISING exactly when its boundary is below 150. -/
theorem hysteresis (fma : Bool) (h : Int) (s : LoopState) (B0 : Int)
    (hc : s.inCurves = 0) (hB0 : 200 ≤ B0) :
    (∀ bs : List Int, (∀ b ∈ bs, 150 ≤ b) →
        (lookaheadFrames fma h s (B0 :: bs)).inCurves = 1)
    ∧ (∀ (t : LoopState) (b : Int), t.inCurves = 1 →
        ((lookaheadFrame fma h t b).inCurves = 0 ↔ b < 150)) := by
  constructor
  · intro bs hall
    have hin : (lookaheadFrame fma h s B0).inCurves = 1 := by
      rw [(lookaheadFrame_cruising fma h s B0 hc).1]
      simp [hB0]
    simpa [lookaheadFrames] using lookaheadFrames_stay fma h bs _ hin hall
  · intro t b ht
    rw [(lookaheadFrame_inCurve fma h t b ht).1]
    by_cases hb : b < 150 <;> simp [hb]

/-- A concrete instance of `hysteresis`: entry at 205, then boundaries oscillating
between 150 and 199. -/
theorem hysteresis_witness :
    (lookaheadFrames false 480 LoopState.init [205, 150, 199, 160, 199, 150]).inCurves = 1 :=
  (hysteresis false 480 LoopState.init 205 rfl (by decide)).1 [150, 199, 160, 199, 150]
    (by decide)

/-! ## Theorems: the longest run -/

/-- The selection loop started with `a` either keeps `a`, no later run being longer, or
returns the first run that is strictly longer than everything before it and at least as
long as everything after it. -/
theorem foldl_longer (l : List SliceDescriptor) :
    ∀ a : SliceDescriptor,
      (l.foldl longer a = a ∧ ∀ x ∈ l, x.End - x.Start ≤ a.End - a.Start)
      ∨ ∃ l1 d l2, l = l1 ++ d :: l2 ∧ l.foldl longer a = d
          ∧ a.End - a.Start < d.End - d.Start
          ∧ (∀ x ∈ l1, x.End - x.Start < d.End - d.Start)
          ∧ (∀ x ∈ l2, x.End - x.Start ≤ d.End - d.Start) := by
  induction l with
  | nil => intro a; left; simp
  | cons b l ih =>
    intro a
    by_cases hb : b.End - b.Start > a.End - a.Start
    · have hstep : longer a b = b := by simp [longer, hb]
      rcases ih b with ⟨h1, h2⟩ | ⟨l1, d, l2, h1, h2, h3, h4, h5⟩
      · right
        refine ⟨[], b, l, rfl, ?_, hb, ?_, h2⟩
        · simp [List.foldl_cons, hstep, h1]
        · simp
      · right
        refine ⟨b :: l1, d, l2, ?_, ?_, ?_, ?_, h5⟩
        · simp [h1]
        · simp [List.foldl_cons, hstep, h2]
        · omega
        · intro x hx
          rcases List.mem_cons.mp hx with rfl | hx
          · exact h3
          · exact h4 x hx
    · have hstep : longer a b = a := by simp [longer, hb]
      rcases ih a with ⟨h1, h2⟩ | ⟨l1, d, l2, h1, h2, h3, h4, h5⟩
      · left
        refine ⟨?_, ?_⟩
        · simp [List.foldl_cons, hstep, h1]
        · intro x hx
          rcases List.mem_cons.mp hx with rfl | hx
          · omega
          · exact h2 x hx
      · right
        refine ⟨b :: l1, d, l2, ?_, ?_, h3, ?_, h5⟩
        · simp [h1]
        · simp [List.foldl_cons, hstep, h2]
        · intro x hx
          rcases List.mem_cons.mp hx with rfl | hx
          · omega
          · exact h4 x hx

/-- The result of `getLongestConsecutiveWhiteSlice` splits the list: it is strictly longer
than every run before it and at least as long as every run after it. -/
theorem longest_split (l : List SliceDescriptor) (hne : l ≠ []) :
    ∃ l1 d l2, l = l1 ++ d :: l2 ∧ getLongestConsecutiveWhiteSlice l = some d
      ∧ (∀ x ∈ l1, x.End - x.Start < d.End - d.Start)
      ∧ (∀ x ∈ l2, x.End - x.Start ≤ d.End - d.Start) := by
  cases l with
  | nil => exact absurd rfl hne
  | cons a l =>
    have hstep : longer a a = a := by simp [longer]
    rcases foldl_longer l a with ⟨h1, h2⟩ | ⟨l1, d, l2, h1, h2, h3, h4, h5⟩
    · refine ⟨[], a, l, rfl, ?_, ?_, h2⟩
      · simp [getLongestConsecutiveWhiteSlice, List.foldl_cons, hstep, h1]
      · simp
    · refine ⟨a :: l1, d, l2, ?_, ?_, ?_, h5⟩
      · simp [h1]
      · simp [getLongestConsecutiveWhiteSlice, List.foldl_cons, hstep, h2]
      · intro x hx
        rcases List.mem_cons.mp hx with rfl | hx
        · exact h3
        · exact h4 x hx

/-- C4: for a non-empty list of runs `getLongestConsecutiveWhiteSlice` returns a run `d` of
the list whose length `End - Start` is the maximum over the list, and it is the first run of
that length in list order: every run before it is strictly shorter, every run after it is
not longer.  For the empty list it returns `nil`. -/
theorem longest_is_first_maximum (l : List SliceDescriptor) :
    (l ≠ [] → ∃ l1 d l2, l = l1 ++ d :: l2
        ∧ getLongestConsecutiveWhiteSlice l = some d
        ∧ (∀ x ∈ l, x.End - x.Start ≤ d.End - d.Start)
        ∧ (∀ x ∈ l1, x.End - x.Start < d.End - d.Start))
    ∧ getLongestConsecutiveWhiteSlice [] = none := by
  refine ⟨?_, rfl⟩
  intro hne
  obtain ⟨l1, d, l2, h1, h2, h3, h4⟩ := longest_split l hne
  refine ⟨l1, d, l2, h1, h2, ?_, h3⟩
  intro x hx
  rw [h1] at hx
  rcases List.mem_append.mp hx with hx | hx
  · exact le_of_lt (h3 x hx)
  · rcases List.mem_cons.mp hx with rfl | hx
    · exact le_refl _
    · exact h4 x hx

/-- A concrete instance of `longest_is_first_maximum`: of two runs of the same greatest
length the left one is returned. -/
theorem longest_is_first_maximum_witness :
    getLongestConsecutiveWhiteSlice [⟨3, 5⟩, ⟨10, 19⟩, ⟨30, 39⟩, ⟨50, 51⟩] = some ⟨10, 19⟩
    ∧ ∃ l1 d l2, [(⟨3, 5⟩ : SliceDescriptor), ⟨10, 19⟩, ⟨30, 39⟩, ⟨50, 51⟩] = l1 ++ d :: l2
        ∧ getLongestConsecutiveWhiteSlice [⟨3, 5⟩, ⟨10, 19⟩, ⟨30, 39⟩, ⟨50, 51⟩] = some d
        ∧ (∀ x ∈ [(⟨3, 5⟩ : SliceDescriptor), ⟨10, 19⟩, ⟨30, 39⟩, ⟨50, 51⟩],
            x.End - x.Start ≤ d.End - d.Start)
        ∧ (∀ x ∈ l1, x.End - x.Start < d.End - d.Start) :=
  ⟨by decide,
   (longest_is_first_maximum [⟨3, 5⟩, ⟨10, 19⟩, ⟨30, 39⟩, ⟨50, 51⟩]).1 (by decide)⟩

/-! ## Theorems: the runs of a row -/

/-- The scan of `n + 1` columns is the scan of `n` columns followed by column `n`. -/
theorem scanColumns_succ (m : Mat) (n : Nat) :
    scanColumns m (n + 1) = scanColumn m (scanColumns m n) n := by
  simp [scanColumns, List.range_succ, List.foldl_append]

/-- Loop invariant of the column scan after `n` columns: the runs already stored are
foreground runs left of column `n`, and an open run ends at column `n - 1`. -/
theorem scanColumns_inv (m : Mat) (n : Nat) :
    (∀ d ∈ (scanColumns m n).1, IsForegroundRun m n d)
    ∧ (∀ c, (scanColumns m n).2 = some c →
        0 ≤ c.Start ∧ c.Start ≤ c.End ∧ c.End = (n : Int) - 1
          ∧ ∀ x : Int, c.Start ≤ x → x ≤ c.End → m.GetVecbAt 0 x ≠ 0) := by
  induction n with
  | zero => simp [scanColumns]
  | succ n ih =>
    obtain ⟨ih1, ih2⟩ := ih
    have hmono : ∀ d, IsForegroundRun m n d → IsForegroundRun m ((n + 1 : Nat) : Int) d := by
      intro d hd
      obtain ⟨h1, h2, h3, h4⟩ := hd
      exact ⟨h1, h2, by push_cast; omega, h4⟩
    rw [scanColumns_succ]
    unfold scanColumn
    by_cases hw : m.GetVecbAt 0 (n : Int) ≠ 0
    · simp only [hw, if_true, ne_eq, not_false_eq_true]
      cases hcur : (scanColumns m n).2 with
      | none =>
        refine ⟨fun d hd => hmono d (ih1 d hd), ?_⟩
        intro c hc
        simp only [Option.some.injEq] at hc
        subst hc
        refine ⟨by simp, by simp, by simp, ?_⟩
        intro x hx1 hx2
        have : x = (n : Int) := by simp at hx1 hx2; omega
        rw [this]; exact hw
      | some c0 =>
        obtain ⟨g1, g2, g3, g4⟩ := ih2 c0 hcur
        refine ⟨fun d hd => hmono d (ih1 d hd), ?_⟩
        intro c hc
        simp only [Option.some.injEq] at hc
        subst hc
        refine ⟨g1, by simp; omega, by simp, ?_⟩
        intro x hx1 hx2
        simp at hx1 hx2
        by_cases hxn : x = (n : Int)
        · rw [hxn]; exact hw
        · exact g4 x hx1 (by omega)
    · simp only [hw, if_false]
      cases hcur : (scanColumns m n).2 with
      | none =>
        refine ⟨fun d hd => hmono d (ih1 d hd), ?_⟩
        intro c hc
        simp at hc
      | some c0 =>
        obtain ⟨g1, g2, g3, g4⟩ := ih2 c0 hcur
        refine ⟨?_, ?_⟩
        · intro d hd
          simp only at hd
          by_cases hlen : c0.End - c0.Start > 0
          · rw [if_pos hlen] at hd
            rcases List.mem_append.mp hd with hd | hd
            · exact hmono d (ih1 d hd)
            · have : d = c0 := by simpa using hd
              subst this
              exact ⟨g1, by omega, by push_cast; omega, g4⟩
          · rw [if_neg hlen] at hd
            exact hmono d (ih1 d hd)
        · intro c hc
          simp at hc

/-- Every run returned by `getConsecutiveWhitePointsFromSlice` has at least two columns,
lies within columns `0 .. Cols - 2`, and all its columns `Start..End` are foreground. -/
theorem runs_are_foreground (m : Mat) :
    ∀ d ∈ getConsecutiveWhitePointsFromSlice m, IsForegroundRun m (m.Cols - 1) d := by
  obtain ⟨h1, h2⟩ := scanColumns_inv m (m.Cols - 1).toNat
  have hcast : ∀ d, IsForegroundRun m ((m.Cols - 1).toNat : Int) d →
      IsForegroundRun m (m.Cols - 1) d := by
    intro d hd
    obtain ⟨a1, a2, a3, a4⟩ := hd
    exact ⟨a1, a2, by omega, a4⟩
  intro d hd
  unfold getConsecutiveWhitePointsFromSlice at hd
  simp only at hd
  cases hcur : (scanColumns m (m.Cols - 1).toNat).2 with
  | none =>
    rw [hcur] at hd
    exact hcast d (h1 d hd)
  | some c0 =>
    rw [hcur] at hd
    obtain ⟨g1, g2, g3, g4⟩ := h2 c0 hcur
    simp only at hd
    by_cases hlen : c0.End - c0.Start > 0
    · rw [if_pos hlen] at hd
      rcases List.mem_append.mp hd with hd | hd
      · exact hcast d (h1 d hd)
      · have : d = c0 := by simpa using hd
        subst this
        exact ⟨g1, by omega, by omega, g4⟩
    · rw [if_neg hlen] at hd
      exact hcast d (h1 d hd)

/-- The run selected by `getLongestConsecutiveWhiteSlice` is one of the list. -/
theorem longest_mem (l : List SliceDescriptor) (d : SliceDescriptor)
    (h : getLongestConsecutiveWhiteSlice l = some d) : d ∈ l := by
  have hne : l ≠ [] := by
    intro h0
    rw [h0] at h
    simp [getLongestConsecutiveWhiteSlice] at h
  obtain ⟨l1, d1, l2, e1, e2, -, -⟩ := longest_split l hne
  rw [e2] at h
  have : d1 = d := by simpa using h
  subst this
  rw [e1]
  simp

/-! ## Theorems: the emitted trajectory point -/

/-- C5, as stated, fails on the scenario row (foreground columns exactly 100..179 and
300..309): the selected run is `Start = 100`, `End = 179`, the last foreground column and
not 180, and the emitted x is `(100 + 179) / 2 = 139`, not 140. -/
theorem scenario_midpoint_is_139 :
    getLongestConsecutiveWhiteSlice (getConsecutiveWhitePointsFromSlice scenarioRow)
        = some ⟨100, 179⟩
    ∧ trajectoryPoints scenarioRow 240 = [⟨139, 240⟩]
    ∧ trajectoryPoints scenarioRow 240 ≠ [⟨140, 240⟩] := by
  decide!

/-- C6 at rows that reach the last column.  On a 640-column row with foreground columns
600..639 the reported run stops at column 638; on the 4-column row with foreground columns
2..3 no run is reported, and on the one with foreground columns 1..3 the reported run stops
at column 2.  No reported run ever contains the last column: the column scan ends one
column short of the right edge. -/
theorem last_column_is_not_scanned :
    getConsecutiveWhitePointsFromSlice edgeRow = [⟨600, 638⟩]
    ∧ getConsecutiveWhitePointsFromSlice (rowOfList [0, 0, 255, 255]) = []
    ∧ getConsecutiveWhitePointsFromSlice (rowOfList [0, 255, 255, 255]) = [⟨1, 2⟩]
    ∧ ∀ m : Mat, ∀ d ∈ getConsecutiveWhitePointsFromSlice m, d.End ≠ m.Cols - 1 := by
  refine ⟨by decide!, by decide, by decide, ?_⟩
  intro m d hd
  obtain ⟨-, -, g3, -⟩ := runs_are_foreground m d hd
  omega

/-! ## Theorems: the warm update of the boundary -/

/-- The downward loop, given fuel for the rows left below `y`: it makes `k` probes at rows
`y + 2, ..., y + 2 * k`, none before the last reads 255, and it stops either on a probe that
reads 255 or when the next probe would leave the column. -/
theorem searchDown_spec (m : Mat) (fuel : Nat) :
    ∀ y : Int, 479 - y ≤ (fuel : Int) →
      ∃ k : Nat, searchDown m fuel y = y + 2 * (k : Int)
        ∧ (1 ≤ k → y + 2 * (k : Int) ≤ 479)
        ∧ (∀ j : Nat, 1 ≤ j → j < k → m.GetVecbAt (y + 2 * (j : Int)) 0 ≠ 255)
        ∧ ((1 ≤ k ∧ m.GetVecbAt (y + 2 * (k : Int)) 0 = 255)
           ∨ ((1 ≤ k → m.GetVecbAt (y + 2 * (k : Int)) 0 ≠ 255)
              ∧ 479 < y + 2 * (k : Int) + 2)) := by
  induction fuel with
  | zero =>
    intro y hy
    refine ⟨0, by simp [searchDown], by omega, by omega, Or.inr ⟨by omega, ?_⟩⟩
    simp at hy ⊢
    omega
  | succ fuel ih =>
    intro y hy
    by_cases h1 : y + 2 ≤ 479
    · by_cases h2 : m.GetVecbAt (y + 2) 0 = 255
      · refine ⟨1, by simp [searchDown, h1, h2], by simpa using h1, by omega, Or.inl ⟨le_refl 1, ?_⟩⟩
        simpa using h2
      · obtain ⟨k, e1, e2, e3, e4⟩ := ih (y + 2) (by push_cast at hy; omega)
        refine ⟨k + 1, ?_, ?_, ?_, ?_⟩
        · simp only [searchDown, h1, h2, if_true, if_false, e1]
          push_cast
          ring
        · intro _
          by_cases hk : 1 ≤ k
          · have := e2 hk
            push_cast
            omega
          · have : k = 0 := by omega
            subst this
            simpa using h1
        · intro j hj1 hj2
          by_cases hj : j = 1
          · subst hj
            simpa using h2
          · have := e3 (j - 1) (by omega) (by omega)
            have hc : y + 2 + 2 * ((j - 1 : Nat) : Int) = y + 2 * (j : Int) := by
              have : ((j - 1 : Nat) : Int) = (j : Int) - 1 := by omega
              rw [this]; ring
            rwa [hc] at this
        · have hc : y + 2 + 2 * (k : Int) = y + 2 * ((k + 1 : Nat) : Int) := by
            push_cast; ring
          rw [hc] at e4
          rcases e4 with ⟨a1, a2⟩ | ⟨a1, a2⟩
          · exact Or.inl ⟨by omega, a2⟩
          · refine Or.inr ⟨?_, a2⟩
            intro _
            by_cases hk : 1 ≤ k
            · exact a1 hk
            · have : k = 0 := by omega
              subst this
              simpa using h2
    · refine ⟨0, by simp [searchDown, h1], by omega, by omega, Or.inr ⟨by omega, ?_⟩⟩
      simp
      omega

/-- The upward loop, given fuel for the rows left above `y`: it makes `k` probes at rows
`y - 2, ..., y - 2 * k`, none before the last reads 0, and it stops either on a probe that
reads 0 or when the next probe would leave the column. -/
theorem searchUp_spec (m : Mat) (fuel : Nat) :
    ∀ y : Int, y ≤ (fuel : Int) →
      ∃ k : Nat, searchUp m fuel y = y - 2 * (k : Int)
        ∧ (1 ≤ k → 0 ≤ y - 2 * (k : Int))
        ∧ (∀ j : Nat, 1 ≤ j → j < k → m.GetVecbAt (y - 2 * (j : Int)) 0 ≠ 0)
        ∧ ((1 ≤ k ∧ m.GetVecbAt (y - 2 * (k : Int)) 0 = 0)
           ∨ ((1 ≤ k → m.GetVecbAt (y - 2 * (k : Int)) 0 ≠ 0)
              ∧ y - 2 * (k : Int) - 2 < 0)) := by
  induction fuel with
  | zero =>
    intro y hy
    refine ⟨0, by simp [searchUp], by omega, by omega, Or.inr ⟨by omega, ?_⟩⟩
    simp at hy ⊢
    omega
  | succ fuel ih =>
    intro y hy
    by_cases h1 : y - 2 ≥ 0
    · by_cases h2 : m.GetVecbAt (y - 2) 0 = 0
      · refine ⟨1, by simp [searchUp, h1, h2], by simpa using h1, by omega, Or.inl ⟨le_refl 1, ?_⟩⟩
        simpa using h2
      · obtain ⟨k, e1, e2, e3, e4⟩ := ih (y - 2) (by push_cast at hy; omega)
        refine ⟨k + 1, ?_, ?_, ?_, ?_⟩
        · simp only [searchUp, h1, h2, if_true, if_false, e1]
          push_cast
          ring
        · intro _
          by_cases hk : 1 ≤ k
          · have := e2 hk
            push_cast
            omega
          · have : k = 0 := by omega
            subst this
            simpa using h1
        · intro j hj1 hj2
          by_cases hj : j = 1
          · subst hj
            simpa using h2
          · have := e3 (j - 1) (by omega) (by omega)
            have hc : y - 2 - 2 * ((j - 1 : Nat) : Int) = y - 2 * (j : Int) := by
              have : ((j - 1 : Nat) : Int) = (j : Int) - 1 := by omega
              rw [this]; ring
            rwa [hc] at this
        · have hc : y - 2 - 2 * (k : Int) = y - 2 * ((k + 1 : Nat) : Int) := by
            push_cast; ring
          rw [hc] at e4
          rcases e4 with ⟨a1, a2⟩ | ⟨a1, a2⟩
          · exact Or.inl ⟨by omega, a2⟩
          · refine Or.inr ⟨?_, a2⟩
            intro _
            by_cases hk : 1 ≤ k
            · exact a1 hk
            · have : k = 0 := by omega
              subst this
              simpa using h2
    · refine ⟨0, by simp [searchUp, h1], by omega, by omega, Or.inr ⟨by omega, ?_⟩⟩
      simp
      omega

/-- C9: the warm update on a binary column, for `prevY` in 0..479.  When the sample at
`prevY` is background the rows `prevY + 2, prevY + 4, ...` are probed, when it is foreground
the rows `prevY - 2, prevY - 4, ...`; with `k` the number of probes made, the result is
`prevY + 2 * k` (down) or `prevY - 2 * k` (up) and lies in 0..479, every probe before the
last missed the target, and either the last probe found it (foreground going down,
background going up) or no probe found it and one more step would leave rows 0..479. -/
theorem detectNewBoundary_probes (m : Mat) (prevY : Int) (h0 : 0 ≤ prevY) (h1 : prevY ≤ 479)
    (hbin : ∀ r : Int, 0 ≤ r → r ≤ 479 → m.GetVecbAt r 0 = 0 ∨ m.GetVecbAt r 0 = 255) :
    (m.GetVecbAt prevY 0 = 0 →
      ∃ k : Nat, detectNewBoundary m prevY = prevY + 2 * (k : Int)
        ∧ detectNewBoundary m prevY ≤ 479
        ∧ (∀ j : Nat, 1 ≤ j → j < k → m.GetVecbAt (prevY + 2 * (j : Int)) 0 = 0)
        ∧ ((1 ≤ k ∧ m.GetVecbAt (prevY + 2 * (k : Int)) 0 ≠ 0)
           ∨ ((1 ≤ k → m.GetVecbAt (prevY + 2 * (k : Int)) 0 = 0)
              ∧ 479 < prevY + 2 * (k : Int) + 2)))
    ∧ (m.GetVecbAt prevY 0 ≠ 0 →
      ∃ k : Nat, detectNewBoundary m prevY = prevY - 2 * (k : Int)
        ∧ 0 ≤ detectNewBoundary m prevY
        ∧ (∀ j : Nat, 1 ≤ j → j < k → m.GetVecbAt (prevY - 2 * (j : Int)) 0 ≠ 0)
        ∧ ((1 ≤ k ∧ m.GetVecbAt (prevY - 2 * (k : Int)) 0 = 0)
           ∨ ((1 ≤ k → m.GetVecbAt (prevY - 2 * (k : Int)) 0 ≠ 0)
              ∧ prevY - 2 * (k : Int) - 2 < 0))) := by
  constructor
  · intro hbg
    obtain ⟨k, e1, e2, e3, e4⟩ :=
      searchDown_spec m (479 - prevY).toNat prevY (by omega)
    have hres : detectNewBoundary m prevY = prevY + 2 * (k : Int) := by
      simp [detectNewBoundary, hbg, e1]
    have hnot : ∀ r : Int, 0 ≤ r → r ≤ 479 → m.GetVecbAt r 0 ≠ 255 → m.GetVecbAt r 0 = 0 := by
      intro r hr0 hr1 hne
      rcases hbin r hr0 hr1 with hz | hw
      · exact hz
      · exact absurd hw hne
    have hle : prevY + 2 * (k : Int) ≤ 479 := by
      by_cases hk : 1 ≤ k
      · exact e2 hk
      · have : k = 0 := by omega
        subst this
        simpa using h1
    refine ⟨k, hres, by rw [hres]; exact hle, ?_, ?_⟩
    · intro j hj1 hj2
      exact hnot _ (by omega) (by omega) (e3 j hj1 hj2)
    · rcases e4 with ⟨a1, a2⟩ | ⟨a1, a2⟩
      · exact Or.inl ⟨a1, by rw [a2]; norm_num⟩
      · exact Or.inr ⟨fun hk => hnot _ (by omega) hle (a1 hk), a2⟩
  · intro hfg
    obtain ⟨k, e1, e2, e3, e4⟩ := searchUp_spec m prevY.toNat prevY (by omega)
    have hres : detectNewBoundary m prevY = prevY - 2 * (k : Int) := by
      simp [detectNewBoundary, hfg, e1]
    refine ⟨k, hres, ?_, e3, e4⟩
    rw [hres]
    by_cases hk : 1 ≤ k
    · exact e2 hk
    · have : k = 0 := by omega
      subst this
      simpa using h0

/-- A concrete instance of `detectNewBoundary_probes`: the column with boundary at row 100,
warm update from row 96 (three probes down, at rows 98, 100 and 102). -/
theorem detectNewBoundary_probes_witness :
    detectNewBoundary (boundaryColumn 100) 96 = 102
    ∧ ∃ k : Nat, detectNewBoundary (boundaryColumn 100) 96 = 96 + 2 * (k : Int)
        ∧ detectNewBoundary (boundaryColumn 100) 96 ≤ 479
        ∧ (∀ j : Nat, 1 ≤ j → j < k →
            (boundaryColumn 100).GetVecbAt (96 + 2 * (j : Int)) 0 = 0)
        ∧ ((1 ≤ k ∧ (boundaryColumn 100).GetVecbAt (96 + 2 * (k : Int)) 0 ≠ 0)
           ∨ ((1 ≤ k → (boundaryColumn 100).GetVecbAt (96 + 2 * (k : Int)) 0 = 0)
              ∧ 479 < 96 + 2 * (k : Int) + 2)) :=
  ⟨by decide,
   (detectNewBoundary_probes (boundaryColumn 100) 96 (by decide) (by decide)
      (fun r _ _ => by
        by_cases hr : r ≤ 100
        · exact Or.inl (by simp [boundaryColumn, columnOf, hr])
        · exact Or.inr (by simp [boundaryColumn, columnOf, hr]))).1 (by decide)⟩

/-! ## Theorems: warm updates on a column with a known boundary -/

/-- The rows of the boundary column that read 0 are the rows `0..R`. -/
theorem boundaryColumn_eq_zero (R r c : Int) :
    (boundaryColumn R).GetVecbAt r c = 0 ↔ r ≤ R := by
  by_cases h : r ≤ R <;> simp [boundaryColumn, columnOf, h]

/-- The rows of the boundary column that read 255 are the rows below `R`. -/
theorem boundaryColumn_eq_255 (R r c : Int) :
    (boundaryColumn R).GetVecbAt r c = 255 ↔ R < r := by
  by_cases h : r ≤ R
  · simp [boundaryColumn, columnOf, h]
  · simp [boundaryColumn, columnOf, h]
    omega

/-- The cold-start scan of the column with boundary at `R` returns `R`. -/
theorem verticalScanUpFrom_boundaryColumn (R : Int) (hR0 : 0 ≤ R) (n : Nat) :
    R < (n : Int) → verticalScanUpFrom (boundaryColumn R) n = R := by
  induction n with
  | zero => intro h; simp at h; omega
  | succ n ih =>
    intro h
    by_cases hz : (n : Int) ≤ R
    · have hn : (n : Int) = R := by push_cast at h; omega
      simp [verticalScanUpFrom, boundaryColumn_eq_zero, hz, hn]
    · simp only [verticalScanUpFrom, boundaryColumn_eq_zero, hz, if_false]
      exact ih (by omega)

/-- One warm update on the column with boundary at `R`: the result stays in 0..479, keeps
the parity of `y`, and lands just below the boundary (from above it just on or over it),
unless the end of the column stops the search first. -/
theorem boundaryColumn_step (R y : Int) (hR0 : 0 ≤ R) (hR1 : R ≤ 479)
    (hy0 : 0 ≤ y) (hy1 : y ≤ 479) :
    0 ≤ detectNewBoundary (boundaryColumn R) y
    ∧ detectNewBoundary (boundaryColumn R) y ≤ 479
    ∧ detectNewBoundary (boundaryColumn R) y % 2 = y % 2
    ∧ (y ≤ R → (R < detectNewBoundary (boundaryColumn R) y
                  ∧ detectNewBoundary (boundaryColumn R) y ≤ R + 2)
              ∨ (detectNewBoundary (boundaryColumn R) y ≤ R
                  ∧ 477 < detectNewBoundary (boundaryColumn R) y))
    ∧ (R < y → (detectNewBoundary (boundaryColumn R) y ≤ R
                  ∧ R - 1 ≤ detectNewBoundary (boundaryColumn R) y)
              ∨ (R < detectNewBoundary (boundaryColumn R) y
                  ∧ detectNewBoundary (boundaryColumn R) y < 2)) := by
  by_cases hy : y ≤ R
  · obtain ⟨k, e1, e2, e3, e4⟩ :=
      searchDown_spec (boundaryColumn R) (479 - y).toNat y (by omega)
    have hres : detectNewBoundary (boundaryColumn R) y = y + 2 * (k : Int) := by
      simp [detectNewBoundary, boundaryColumn_eq_zero, hy, e1]
    simp only [ne_eq, boundaryColumn_eq_255] at e3 e4
    rw [hres]
    have hprev : 2 ≤ k → ¬ R < y + 2 * ((k - 1 : Nat) : Int) :=
      fun hk => e3 (k - 1) (by omega) (by omega)
    by_cases hk1 : 1 ≤ k
    · have hb := e2 hk1
      by_cases hk2 : 2 ≤ k
      · have hp := hprev hk2
        have hc : ((k - 1 : Nat) : Int) = (k : Int) - 1 := by omega
        rw [hc] at hp
        rcases e4 with ⟨_, a2⟩ | ⟨a1, a2⟩
        · refine ⟨by omega, by omega, by omega, fun _ => Or.inl ⟨a2, by omega⟩, fun h => by omega⟩
        · have := a1 hk1
          refine ⟨by omega, by omega, by omega, fun _ => Or.inr ⟨by omega, by omega⟩,
            fun h => by omega⟩
      · have hk : k = 1 := by omega
        subst hk
        rcases e4 with ⟨_, a2⟩ | ⟨a1, a2⟩
        · refine ⟨by omega, by omega, by omega, fun _ => Or.inl ⟨a2, by omega⟩, fun h => by omega⟩
        · have := a1 hk1
          refine ⟨by omega, by omega, by omega, fun _ => Or.inr ⟨by omega, by omega⟩,
            fun h => by omega⟩
    · have hk : k = 0 := by omega
      subst hk
      rcases e4 with ⟨a1, _⟩ | ⟨_, a2⟩
      · omega
      · refine ⟨by omega, by omega, by omega, fun _ => Or.inr ⟨by omega, by omega⟩,
          fun h => by omega⟩
  · obtain ⟨k, e1, e2, e3, e4⟩ := searchUp_spec (boundaryColumn R) y.toNat y (by omega)
    have hres : detectNewBoundary (boundaryColumn R) y = y - 2 * (k : Int) := by
      simp [detectNewBoundary, boundaryColumn_eq_zero, hy, e1]
    simp only [ne_eq, boundaryColumn_eq_zero] at e3 e4
    rw [hres]
    have hprev : 2 ≤ k → ¬ y - 2 * ((k - 1 : Nat) : Int) ≤ R :=
      fun hk => e3 (k - 1) (by omega) (by omega)
    by_cases hk1 : 1 ≤ k
    · have hb := e2 hk1
      by_cases hk2 : 2 ≤ k
      · have hp := hprev hk2
        have hc : ((k - 1 : Nat) : Int) = (k : Int) - 1 := by omega
        rw [hc] at hp
        rcases e4 with ⟨_, a2⟩ | ⟨a1, a2⟩
        · refine ⟨by omega, by omega, by omega, fun h => by omega,
            fun _ => Or.inl ⟨a2, by omega⟩⟩
        · have := a1 hk1
          refine ⟨by omega, by omega, by omega, fun h => by omega,
            fun _ => Or.inr ⟨by omega, by omega⟩⟩
      · have hk : k = 1 := by omega
        subst hk
        rcases e4 with ⟨_, a2⟩ | ⟨a1, a2⟩
        · refine ⟨by omega, by omega, by omega, fun h => by omega,
            fun _ => Or.inl ⟨a2, by omega⟩⟩
        · have := a1 hk1
          refine ⟨by omega, by omega, by omega, fun h => by omega,
            fun _ => Or.inr ⟨by omega, by omega⟩⟩
    · have hk : k = 0 := by omega
      subst hk
      rcases e4 with ⟨a1, _⟩ | ⟨_, a2⟩
      · omega
      · refine ⟨by omega, by omega, by omega, fun h => by omega,
          fun _ => Or.inr ⟨by omega, by omega⟩⟩

/-- Repeated warm updates on the column with boundary at `R` stay in 0..479, keep the
parity of the start row and, from the first update on, stay within `R - 1 .. R + 2`. -/
theorem warmUpdates_boundaryColumn (R : Int) (hR0 : 0 ≤ R) (hR1 : R ≤ 479) (n : Nat) :
    ∀ y : Int, 0 ≤ y → y ≤ 479 →
      0 ≤ warmUpdates (boundaryColumn R) n y
      ∧ warmUpdates (boundaryColumn R) n y ≤ 479
      ∧ warmUpdates (boundaryColumn R) n y % 2 = y % 2
      ∧ (1 ≤ n → R - 1 ≤ warmUpdates (boundaryColumn R) n y
                ∧ warmUpdates (boundaryColumn R) n y ≤ R + 2) := by
  induction n with
  | zero =>
    intro y hy0 hy1
    exact ⟨hy0, hy1, rfl, fun h => by omega⟩
  | succ n ih =>
    intro y hy0 hy1
    obtain ⟨s1, s2, s3, s4, s5⟩ := boundaryColumn_step R y hR0 hR1 hy0 hy1
    obtain ⟨i1, i2, i3, i4⟩ := ih (detectNewBoundary (boundaryColumn R) y) s1 s2
    simp only [warmUpdates]
    refine ⟨i1, i2, by omega, fun _ => ?_⟩
    by_cases hn : 1 ≤ n
    · exact i4 hn
    · have : n = 0 := by omega
      subst this
      simp only [warmUpdates]
      by_cases hy : y ≤ R
      · have := s4 hy
        omega
      · have := s5 (by omega)
        omega

/-- C10, as stated, fails on the column with boundary at row 100 (the cold-start scan
returns 100): a warm update started at `prevY = 100` returns 102, not 100, and started one
row off, at `prevY = 101`, no number of warm updates ever gives 100. -/
theorem warm_update_leaves_boundary :
    verticalScanUp (boundaryColumn 100) = 100
    ∧ detectNewBoundary (boundaryColumn 100) 100 = 102
    ∧ detectNewBoundary (boundaryColumn 100) 100 ≠ 100
    ∧ ∀ n : Nat, warmUpdates (boundaryColumn 100) n 101 ≠ 100 := by
  refine ⟨verticalScanUpFrom_boundaryColumn 100 (by decide) 480 (by decide),
    by decide, by decide, ?_⟩
  intro n hn
  have h := (warmUpdates_boundaryColumn 100 (by decide) (by decide) n 101
    (by decide) (by decide)).2.2.1
  rw [hn] at h
  revert h
  decide

/-- C10, amended: on the 480-row column with boundary at row `R` (rows `0..R` background,
rows below foreground; the cold-start scan returns `R`) and for every `prevY` in 0..479,
every warm update returns a row of the parity of `prevY` and, from the first update on,
within `R - 1 .. R + 2`.  When `prevY` has the parity of `R` the estimate equals `R` after
at most two updates, and when it has the other parity the estimate never equals `R`.  The
estimate does not rest at `R`: a warm update started at `R` returns `R + 2` when `R ≤ 477`
(the next one returns `R` again), and returns `R` only when `R ≥ 478`. -/
theorem warm_updates_near_boundary (R prevY : Int) (hR0 : 0 ≤ R) (hR1 : R ≤ 479)
    (hy0 : 0 ≤ prevY) (hy1 : prevY ≤ 479) :
    verticalScanUp (boundaryColumn R) = R
    ∧ (∀ n : Nat, warmUpdates (boundaryColumn R) n prevY % 2 = prevY % 2)
    ∧ (∀ n : Nat, 1 ≤ n → R - 1 ≤ warmUpdates (boundaryColumn R) n prevY
        ∧ warmUpdates (boundaryColumn R) n prevY ≤ R + 2)
    ∧ (prevY % 2 = R % 2 → ∃ n : Nat, n ≤ 2 ∧ warmUpdates (boundaryColumn R) n prevY = R)
    ∧ (prevY % 2 ≠ R % 2 → ∀ n : Nat, warmUpdates (boundaryColumn R) n prevY ≠ R)
    ∧ (R ≤ 477 → detectNewBoundary (boundaryColumn R) R = R + 2
        ∧ detectNewBoundary (boundaryColumn R) (R + 2) = R)
    ∧ (477 < R → detectNewBoundary (boundaryColumn R) R = R) := by
  have hall := fun n => warmUpdates_boundaryColumn R hR0 hR1 n prevY hy0 hy1
  have hfromAbove : ∀ y : Int, R < y → y ≤ 479 → y % 2 = R % 2 →
      detectNewBoundary (boundaryColumn R) y = R := by
    intro y hy hy479 hpar
    obtain ⟨_, _, s3, _, s5⟩ := boundaryColumn_step R y hR0 hR1 (by omega) hy479
    have := s5 hy
    omega
  have hfromBelow : ∀ y : Int, 0 ≤ y → y ≤ R → y % 2 = R % 2 →
      detectNewBoundary (boundaryColumn R) y = R + 2
      ∨ detectNewBoundary (boundaryColumn R) y = R := by
    intro y hy0 hy hpar
    obtain ⟨_, _, s3, s4, _⟩ := boundaryColumn_step R y hR0 hR1 hy0 (by omega)
    have := s4 hy
    omega
  refine ⟨verticalScanUpFrom_boundaryColumn R hR0 480 (by omega),
    fun n => (hall n).2.2.1, fun n hn => (hall n).2.2.2 hn, ?_, ?_, ?_, ?_⟩
  · intro hpar
    by_cases hy : R < prevY
    · exact ⟨1, by omega, by simpa [warmUpdates] using hfromAbove prevY hy hy1 hpar⟩
    · by_cases he : prevY = R
      · exact ⟨0, by omega, by simpa [warmUpdates] using he⟩
      · rcases hfromBelow prevY hy0 (by omega) hpar with h2 | h0
        · obtain ⟨_, s2, _, _, _⟩ := boundaryColumn_step R prevY hR0 hR1 hy0 hy1
          refine ⟨2, le_refl 2, ?_⟩
          simp only [warmUpdates]
          rw [h2]
          exact hfromAbove (R + 2) (by omega) (by omega) (by omega)
        · exact ⟨1, by omega, by simpa [warmUpdates] using h0⟩
  · intro hpar n hn
    have := (hall n).2.2.1
    rw [hn] at this
    exact hpar this.symm
  · intro hR
    obtain ⟨_, _, s3, s4, _⟩ := boundaryColumn_step R R hR0 hR1 hR0 hR1
    have h4 := s4 (le_refl R)
    have e : detectNewBoundary (boundaryColumn R) R = R + 2 := by omega
    exact ⟨e, hfromAbove (R + 2) (by omega) (by omega) (by omega)⟩
  · intro hR
    obtain ⟨_, s2, s3, s4, _⟩ := boundaryColumn_step R R hR0 hR1 hR0 hR1
    have h4 := s4 (le_refl R)
    omega

/-- A concrete instance of `warm_updates_near_boundary`: boundary at row 100, start at
row 96; the second update gives 100 and the third leaves it again. -/
theorem warm_updates_near_boundary_witness :
    (∃ n : Nat, n ≤ 2 ∧ warmUpdates (boundaryColumn 100) n 96 = 100)
    ∧ warmUpdates (boundaryColumn 100) 2 96 = 100
    ∧ warmUpdates (boundaryColumn 100) 3 96 = 102 :=
  ⟨(warm_updates_near_boundary 100 96 (by decide) (by decide) (by decide)
      (by decide)).2.2.2.1 (by decide),
   by decide, by decide⟩

end Imaging

namespace Controller

/-! ## Theorems: the steering command -/

/-- The two stores of a key handler run back to back: the variable bound to the key ends
with the moved value cut at its bound. -/
theorem keyPress_eq (ev : KeyEvent) (s : RunState) :
    keyPress ev s =
      if s.listening then
        match ev with
        | .error => s
        | .KeyArrowUp =>
          { s with speed := if s.speed + speedIncrement > 0.5 then 0.5
                            else s.speed + speedIncrement }
        | .KeyArrowDown =>
          { s with speed := if s.speed - speedIncrement < 0 then 0
                            else s.speed - speedIncrement }
        | .KeyEsc => { s with listening := false }
        | .KeyCtrlA =>
          { s with kp := if s.kp + kpIncrement > 1 then 1 else s.kp + kpIncrement }
        | .KeyCtrlS =>
          { s with kp := if s.kp - kpIncrement < 0 then 0 else s.kp - kpIncrement }
        | .KeyCtrlD =>
          { s with kd := if s.kd + kdIncrement > 1 then 1 else s.kd + kdIncrement }
        | .KeyCtrlH =>
          { s with kd := if s.kd - kdIncrement < 0 then 0 else s.kd - kdIncrement }
        | .other => s
      else s := by
  unfold keyPress
  by_cases hl : s.listening = true
  · simp only [hl, if_true]
    cases ev <;> simp only [keyStore, keyClamp] <;> (try split) <;> simp_all
  · simp [hl]

/-- The `min-max` statement is the clamp to `[-1, 1]`. -/
theorem minMax_eq_clamp (v : ℚ) : minMax v = max (-1) (min v 1) := by
  unfold minMax
  by_cases h1 : v > 1
  · rw [if_pos h1, min_eq_right (le_of_lt h1)]
    norm_num
  · by_cases h2 : v < -1
    · rw [if_neg h1, if_pos h2, min_eq_left (not_lt.mp h1), max_eq_left (le_of_lt h2)]
    · rw [if_neg h1, if_neg h2, min_eq_left (not_lt.mp h1), max_eq_right (not_lt.mp h2)]

/-- A cycle on a message with a first point emits the inverted, clamped control signal
of the updated PID controller, with the current speed on both throttles. -/
theorem controlCycle_point (s : RunState) (p : Point) (rest : List Point) :
    (controlCycle s (.sensorOutput (some { Trajectory := some { Points := p :: rest } }))).2
      = some { SteeringAngle := steerCommand (specPidOutput s p.X)
               LeftThrottle := s.speed
               RightThrottle := s.speed
               FrontLights := false } := by
  simp [controlCycle, steer, PidController.Update, specPidOutput]

/-- C7: for every controller state `s` (any gains, any PID state), every received first
point with column `x`, the control cycle emits a command whose steering angle is
`-clamp(u, -1, 1)`, `u` being the raw PID output `kp*e + ki*(integral + e*dt) +
kd*(e - prevError)/dt` with `e = desiredX - x` and `dt = 0.1`; the steering angle lies in
`[-1, 1]`.  On a fresh controller with `desiredX = 320`, `x = 140`, `kp = 0.01`,
`ki = kd = 0`: `u = 1.8` and the emitted steering angle is `-1`. -/
theorem steering_is_inverted_clamp (s : RunState) (p : Point) (rest : List Point) :
    (∃ out : ControllerOutput,
      (controlCycle s (.sensorOutput (some { Trajectory := some { Points := p :: rest } }))).2
        = some out
      ∧ out.SteeringAngle = -(max (-1) (min (specPidOutput s p.X) 1))
      ∧ -1 ≤ out.SteeringAngle ∧ out.SteeringAngle ≤ 1)
    ∧ specPidOutput (RunState.init 0.01 0 0 320) 140 = 1.8
    ∧ (controlCycle (RunState.init 0.01 0 0 320) (targetMessage 140)).2
        = some { SteeringAngle := -1, LeftThrottle := 0.2, RightThrottle := 0.2,
                 FrontLights := false } := by
  refine ⟨⟨_, controlCycle_point s p rest, ?_, ?_, ?_⟩, ?_, ?_⟩
  · simp only [steerCommand, minMax_eq_clamp]
  · simp only [steerCommand, minMax_eq_clamp]
    have : max (-1) (min (specPidOutput s p.X) 1) ≤ 1 :=
      max_le (by norm_num) (min_le_right _ _)
    linarith
  · simp only [steerCommand, minMax_eq_clamp]
    have : (-1 : ℚ) ≤ max (-1) (min (specPidOutput s p.X) 1) := le_max_left _ _
    linarith
  · norm_num [specPidOutput, RunState.init]
  · rw [targetMessage, controlCycle_point]
    norm_num [specPidOutput, RunState.init, steerCommand, minMax]

/-- C8 at a failing input: gains `kp = 0.01`, `ki = kd = 0`, reference column 320; the
operator presses Ctrl-A, which raises the tuning variable `kp` to 0.01005; the next cycle,
on a target at column 300, still emits `-0.2 = -(0.01 * 20)` and not `-(0.01005 * 20)`.
No key press ever changes the PID controller, so the steering of the following cycle is the
same with and without it, while the throttle does follow the arrow keys. -/
theorem gain_keys_do_not_reach_pid :
    (keyPress .KeyCtrlA (RunState.init 0.01 0 0 320)).kp = 0.01005
    ∧ ((controlCycle (keyPress .KeyCtrlA (RunState.init 0.01 0 0 320))
          (targetMessage 300)).2.map (fun o => o.SteeringAngle)) = some (-0.2)
    ∧ (-0.2 : ℚ) ≠ -(0.01005 * (320 - 300))
    ∧ (∀ (ev : KeyEvent) (s : RunState), (keyPress ev s).pidController = s.pidController)
    ∧ (∀ (ev : KeyEvent) (s : RunState) (r : Received),
        (controlCycle (keyPress ev s) r).2.map (fun o => o.SteeringAngle)
          = (controlCycle s r).2.map (fun o => o.SteeringAngle))
    ∧ ((controlCycle (keyPress .KeyArrowUp (RunState.init 0.01 0 0 320))
          (targetMessage 300)).2.map (fun o => o.LeftThrottle)) = some 0.25 := by
  have hpid : ∀ (ev : KeyEvent) (s : RunState),
      (keyPress ev s).pidController = s.pidController ∧
      (keyPress ev s).desiredTrajectoryPoint = s.desiredTrajectoryPoint := by
    intro ev s
    rw [keyPress_eq]
    cases ev <;> by_cases hl : s.listening = true <;> simp [hl]
  refine ⟨?_, ?_, by norm_num, fun ev s => (hpid ev s).1, ?_, ?_⟩
  · norm_num [keyPress_eq, RunState.init, kpIncrement]
  · rw [targetMessage, controlCycle_point]
    norm_num [specPidOutput, RunState.init, steerCommand, minMax, keyPress_eq, kpIncrement]
  · intro ev s r
    obtain ⟨h1, h2⟩ := hpid ev s
    cases r with
    | unmarshalError => simp [controlCycle]
    | sensorOutput cam =>
      cases cam with
      | none => simp [controlCycle]
      | some imagingData =>
        cases hT : imagingData.Trajectory with
        | none => simp [controlCycle, hT]
        | some trajectory =>
          cases hP : trajectory.Points with
          | nil => simp [controlCycle, hT, hP]
          | cons firstPoint rest =>
            simp [controlCycle, hT, hP, steer, h1, h2]
  · rw [targetMessage, controlCycle_point]
    norm_num [RunState.init, keyPress_eq, speedIncrement]

end Controller

namespace Imaging

/-! ## Theorems: the edges of the column -/

/-- The warm update from a row in 0..479 returns a row in 0..479 of the same parity. -/
theorem detectNewBoundary_range (m : Mat) (y : Int) (h0 : 0 ≤ y) (h1 : y ≤ 479) :
    0 ≤ detectNewBoundary m y ∧ detectNewBoundary m y ≤ 479
    ∧ detectNewBoundary m y % 2 = y % 2 := by
  by_cases hz : m.GetVecbAt y 0 = 0
  · obtain ⟨k, e1, e2, -, -⟩ := searchDown_spec m (479 - y).toNat y (by omega)
    have hres : detectNewBoundary m y = y + 2 * (k : Int) := by
      simp [detectNewBoundary, hz, e1]
    rw [hres]
    by_cases hk : 1 ≤ k
    · have := e2 hk
      omega
    · have : k = 0 := by omega
      subst this
      simp
      omega
  · obtain ⟨k, e1, e2, -, -⟩ := searchUp_spec m y.toNat y (by omega)
    have hres : detectNewBoundary m y = y - 2 * (k : Int) := by
      simp [detectNewBoundary, hz, e1]
    rw [hres]
    by_cases hk : 1 ≤ k
    · have := e2 hk
      omega
    · have : k = 0 := by omega
      subst this
      simp
      omega

/-- C11, as stated, fails: on a column without any foreground sample the downward search
from row 100 returns 478, not the last row 479, and on a column without any background
sample the upward search from row 101 returns 1, not row 0. -/
theorem edge_row_is_not_reached :
    (∀ r : Int, blackColumn.GetVecbAt r 0 = 0)
    ∧ detectNewBoundary blackColumn 100 = 478
    ∧ detectNewBoundary blackColumn 100 ≠ 479
    ∧ (∀ r : Int, whiteColumn.GetVecbAt r 0 = 255)
    ∧ detectNewBoundary whiteColumn 101 = 1
    ∧ detectNewBoundary whiteColumn 101 ≠ 0 := by
  refine ⟨fun _ => rfl, by decide!, by decide!, fun _ => rfl, by decide!, by decide!⟩

/-- C11, amended: for `prevY` in 0..479, when no sample matching the search target lies in
the search direction, `detectNewBoundary` returns the last row of the parity of `prevY`
inside the column.  Searching downward (sample at `prevY` background, every row below it
background) that is row 479 when `prevY` is odd and row 478 when it is even; searching
upward (sample at `prevY` foreground, every row above it foreground) that is row 0 when
`prevY` is even and row 1 when it is odd. -/
theorem detectNewBoundary_at_edge (m : Mat) (prevY : Int) (h0 : 0 ≤ prevY)
    (h1 : prevY ≤ 479) :
    (m.GetVecbAt prevY 0 = 0 →
      (∀ r : Int, prevY < r → r ≤ 479 → m.GetVecbAt r 0 = 0) →
        detectNewBoundary m prevY = 479 - (479 - prevY) % 2
        ∧ (prevY % 2 = 1 → detectNewBoundary m prevY = 479)
        ∧ (prevY % 2 = 0 → detectNewBoundary m prevY = 478))
    ∧ (m.GetVecbAt prevY 0 ≠ 0 →
      (∀ r : Int, 0 ≤ r → r < prevY → m.GetVecbAt r 0 ≠ 0) →
        detectNewBoundary m prevY = prevY % 2
        ∧ (prevY % 2 = 0 → detectNewBoundary m prevY = 0)
        ∧ (prevY % 2 = 1 → detectNewBoundary m prevY = 1)) := by
  constructor
  · intro hbg hall
    obtain ⟨k, e1, e2, -, e4⟩ := searchDown_spec m (479 - prevY).toNat prevY (by omega)
    have hres : detectNewBoundary m prevY = prevY + 2 * (k : Int) := by
      simp [detectNewBoundary, hbg, e1]
    rw [hres]
    rcases e4 with ⟨a1, a2⟩ | ⟨-, a2⟩
    · have hz := hall (prevY + 2 * (k : Int)) (by omega) (e2 a1)
      rw [hz] at a2
      exact absurd a2 (by decide)
    · have hle : prevY + 2 * (k : Int) ≤ 479 := by
        by_cases hk : 1 ≤ k
        · exact e2 hk
        · omega
      refine ⟨by omega, fun _ => by omega, fun _ => by omega⟩
  · intro hfg hall
    obtain ⟨k, e1, e2, -, e4⟩ := searchUp_spec m prevY.toNat prevY (by omega)
    have hres : detectNewBoundary m prevY = prevY - 2 * (k : Int) := by
      simp [detectNewBoundary, hfg, e1]
    rw [hres]
    rcases e4 with ⟨a1, a2⟩ | ⟨-, a2⟩
    · exact absurd a2 (hall (prevY - 2 * (k : Int)) (e2 a1) (by omega))
    · have hge : 0 ≤ prevY - 2 * (k : Int) := by
        by_cases hk : 1 ≤ k
        · exact e2 hk
        · omega
      refine ⟨by omega, fun _ => by omega, fun _ => by omega⟩

/-- A concrete instance of `detectNewBoundary_at_edge`: the background column searched
downward from row 100 ends on row 478. -/
theorem detectNewBoundary_at_edge_witness :
    detectNewBoundary blackColumn 100 = 479 - (479 - 100) % 2
    ∧ detectNewBoundary blackColumn 100 = 478 :=
  ⟨((detectNewBoundary_at_edge blackColumn 100 (by decide) (by decide)).1 rfl
      (fun _ _ _ => rfl)).1,
   ((detectNewBoundary_at_edge blackColumn 100 (by decide) (by decide)).1 rfl
      (fun _ _ _ => rfl)).2.2 (by decide)⟩

/-! ## Theorems: the cold-start scan -/

/-- The scan of the rows below `n`, from row `n - 1` upward: it returns the greatest row
below `n` that reads 0, or 0 when no row below `n` reads 0. -/
theorem verticalScanUpFrom_spec (m : Mat) (n : Nat) :
    ∃ r : Nat, verticalScanUpFrom m n = (r : Int)
      ∧ ((r < n ∧ m.GetVecbAt (r : Int) 0 = 0
            ∧ ∀ y : Nat, r < y → y < n → m.GetVecbAt (y : Int) 0 ≠ 0)
         ∨ (r = 0 ∧ ∀ y : Nat, y < n → m.GetVecbAt (y : Int) 0 ≠ 0)) := by
  induction n with
  | zero => exact ⟨0, by simp [verticalScanUpFrom], Or.inr ⟨rfl, fun y hy => by omega⟩⟩
  | succ n ih =>
    by_cases hz : m.GetVecbAt (n : Int) 0 = 0
    · refine ⟨n, by simp [verticalScanUpFrom, hz], Or.inl ⟨by omega, hz, ?_⟩⟩
      intro y h1 h2
      omega
    · obtain ⟨r, e1, e2⟩ := ih
      refine ⟨r, by simp [verticalScanUpFrom, hz, e1], ?_⟩
      rcases e2 with ⟨a1, a2, a3⟩ | ⟨a1, a2⟩
      · refine Or.inl ⟨by omega, a2, ?_⟩
        intro y h1 h2
        by_cases hy : y = n
        · subst hy; exact hz
        · exact a3 y h1 (by omega)
      · refine Or.inr ⟨a1, ?_⟩
        intro y h2
        by_cases hy : y = n
        · subst hy; exact hz
        · exact a2 y (by omega)

/-- C13: on a 480-row column with at least one background sample `verticalScanUp` returns
the largest row `y` in 0..479 whose sample is background (every row below it, down to row
479, is foreground); on a column without background sample it returns 0. -/
theorem verticalScanUp_first_background (m : Mat) :
    ((∃ y : Int, 0 ≤ y ∧ y ≤ 479 ∧ m.GetVecbAt y 0 = 0) →
        0 ≤ verticalScanUp m ∧ verticalScanUp m ≤ 479
        ∧ m.GetVecbAt (verticalScanUp m) 0 = 0
        ∧ ∀ y : Int, verticalScanUp m < y → y ≤ 479 → m.GetVecbAt y 0 ≠ 0)
    ∧ ((∀ y : Int, 0 ≤ y → y ≤ 479 → m.GetVecbAt y 0 ≠ 0) → verticalScanUp m = 0) := by
  obtain ⟨r, e1, e2⟩ := verticalScanUpFrom_spec m 480
  unfold verticalScanUp
  rw [e1]
  constructor
  · rintro ⟨y, hy0, hy1, hy⟩
    rcases e2 with ⟨a1, a2, a3⟩ | ⟨-, a2⟩
    · refine ⟨by omega, by omega, a2, ?_⟩
      intro z hz1 hz2
      have := a3 z.toNat (by omega) (by omega)
      rwa [Int.toNat_of_nonneg (by omega)] at this
    · have := a2 y.toNat (by omega)
      rw [Int.toNat_of_nonneg hy0] at this
      exact absurd hy this
  · intro hall
    rcases e2 with ⟨a1, a2, -⟩ | ⟨a1, -⟩
    · exact absurd a2 (hall r (by omega) (by omega))
    · rw [a1]; rfl

/-- A concrete instance of `verticalScanUp_first_background`: boundary at row 100. -/
theorem verticalScanUp_first_background_witness :
    (boundaryColumn 100).GetVecbAt (verticalScanUp (boundaryColumn 100)) 0 = 0
    ∧ (∀ y : Int, verticalScanUp (boundaryColumn 100) < y → y ≤ 479 →
        (boundaryColumn 100).GetVecbAt y 0 ≠ 0)
    ∧ verticalScanUp whiteColumn = 0 :=
  ⟨((verticalScanUp_first_background (boundaryColumn 100)).1
      ⟨100, by decide, by decide, rfl⟩).2.2.1,
   ((verticalScanUp_first_background (boundaryColumn 100)).1
      ⟨100, by decide, by decide, rfl⟩).2.2.2,
   (verticalScanUp_first_background whiteColumn).2
     (fun _ _ _ => by simp [whiteColumn, columnOf])⟩

/-! ## Theorems: the boundary estimate is a row of the image -/

/-- The cold-start scan returns a row in 0..479. -/
theorem verticalScanUp_range (m : Mat) : 0 ≤ verticalScanUp m ∧ verticalScanUp m ≤ 479 := by
  obtain ⟨r, e1, e2⟩ := verticalScanUpFrom_spec m 480
  unfold verticalScanUp
  rw [e1]
  rcases e2 with ⟨a1, -, -⟩ | ⟨a1, -⟩ <;> omega

/-- A read of column 0 at a row in 0..479 of a 480-row matrix is inside the matrix. -/
theorem read_column (m : Mat) (hr : m.Rows = 480) (hc : 1 ≤ m.Cols) (r : Int)
    (h0 : 0 ≤ r) (h1 : r ≤ 479) : m.read r 0 = some (m.GetVecbAt r 0) := by
  unfold Mat.read
  rw [if_pos]
  refine ⟨h0, by omega, le_refl 0, by omega⟩

/-- On a 480-row matrix the cold-start scan never reads outside the matrix. -/
theorem verticalScanUpFromChecked_eq (m : Mat) (hr : m.Rows = 480) (hc : 1 ≤ m.Cols)
    (n : Nat) : n ≤ 480 → verticalScanUpFromChecked m n = some (verticalScanUpFrom m n) := by
  induction n with
  | zero => intro _; rfl
  | succ n ih =>
    intro hn
    have hread := read_column m hr hc (n : Int) (by omega) (by omega)
    by_cases hz : m.GetVecbAt (n : Int) 0 = 0
    · simp [verticalScanUpFromChecked, verticalScanUpFrom, hread, hz]
    · simp [verticalScanUpFromChecked, verticalScanUpFrom, hread, hz, ih (by omega)]

/-- On a 480-row matrix the downward loop started at a row `y ≥ -2` never reads outside
the matrix. -/
theorem searchDownChecked_eq (m : Mat) (hr : m.Rows = 480) (hc : 1 ≤ m.Cols) (fuel : Nat) :
    ∀ y : Int, -2 ≤ y → searchDownChecked m fuel y = some (searchDown m fuel y) := by
  induction fuel with
  | zero => intro y _; rfl
  | succ fuel ih =>
    intro y hy
    by_cases h1 : y + 2 ≤ 479
    · have hread := read_column m hr hc (y + 2) (by omega) h1
      by_cases hw : m.GetVecbAt (y + 2) 0 = 255
      · simp [searchDownChecked, searchDown, h1, hread, hw]
      · simp [searchDownChecked, searchDown, h1, hread, hw, ih (y + 2) (by omega)]
    · simp [searchDownChecked, searchDown, h1]

/-- On a 480-row matrix the upward loop started at a row `y ≤ 481` never reads outside
the matrix. -/
theorem searchUpChecked_eq (m : Mat) (hr : m.Rows = 480) (hc : 1 ≤ m.Cols) (fuel : Nat) :
    ∀ y : Int, y ≤ 481 → searchUpChecked m fuel y = some (searchUp m fuel y) := by
  induction fuel with
  | zero => intro y _; rfl
  | succ fuel ih =>
    intro y hy
    by_cases h1 : y - 2 ≥ 0
    · have hread := read_column m hr hc (y - 2) h1 (by omega)
      by_cases hw : m.GetVecbAt (y - 2) 0 = 0
      · simp [searchUpChecked, searchUp, h1, hread, hw]
      · simp [searchUpChecked, searchUp, h1, hread, hw, ih (y - 2) (by omega)]
    · simp [searchUpChecked, searchUp, h1]

/-- The boundary estimate of a frame on a 480-row image is a row in 0..479, when the
previous estimate is one (or the frame is the first). -/
theorem detectBoundary_range (buf : Mat) (s : LoopState)
    (hprev : s.start = 1 ∨ (0 ≤ s.prevDetectedBoundary ∧ s.prevDetectedBoundary ≤ 479)) :
    0 ≤ detectBoundary buf s ∧ detectBoundary buf s ≤ 479 := by
  unfold detectBoundary
  by_cases hs : s.start = 1
  · simp only [hs, if_true]
    exact verticalScanUp_range _
  · simp only [hs, if_false]
    rcases hprev with h | ⟨h0, h1⟩
    · exact absurd h hs
    · obtain ⟨a, b, -⟩ := detectNewBoundary_range
        (buf.Region (Int.tdiv buf.Cols 2) 0 (Int.tdiv buf.Cols 2 + 1) buf.Rows)
        s.prevDetectedBoundary h0 h1
      exact ⟨a, b⟩

/-- C15: on a 480-row centerline column `verticalScanUp` reads only samples of the column
and returns a row in 0..479, and for every `prevY` in 0..479 `detectNewBoundary` reads only
samples of the column (the bounds-checked run never fails and agrees with the unchecked
one) and returns a row in 0..479.  The centerline column cut out of a 480-row image is such
a column, so every boundary estimate of the frame loop is a row in 0..479. -/
theorem boundary_estimate_in_image (m : Mat) (hr : m.Rows = 480) (hc : 1 ≤ m.Cols) :
    verticalScanUpChecked m = some (verticalScanUp m)
    ∧ 0 ≤ verticalScanUp m ∧ verticalScanUp m ≤ 479
    ∧ (∀ prevY : Int, 0 ≤ prevY → prevY ≤ 479 →
        detectNewBoundaryChecked m prevY = some (detectNewBoundary m prevY)
        ∧ 0 ≤ detectNewBoundary m prevY ∧ detectNewBoundary m prevY ≤ 479)
    ∧ (∀ (buf : Mat) (s : LoopState), buf.Rows = 480 →
        (buf.Region (Int.tdiv buf.Cols 2) 0 (Int.tdiv buf.Cols 2 + 1) buf.Rows).Rows = 480
        ∧ (buf.Region (Int.tdiv buf.Cols 2) 0 (Int.tdiv buf.Cols 2 + 1) buf.Rows).Cols = 1
        ∧ ((s.start = 1 ∨ (0 ≤ s.prevDetectedBoundary ∧ s.prevDetectedBoundary ≤ 479)) →
            0 ≤ detectBoundary buf s ∧ detectBoundary buf s ≤ 479)) := by
  refine ⟨verticalScanUpFromChecked_eq m hr hc 480 (le_refl _),
    (verticalScanUp_range m).1, (verticalScanUp_range m).2, ?_, ?_⟩
  · intro prevY h0 h1
    obtain ⟨a, b, -⟩ := detectNewBoundary_range m prevY h0 h1
    refine ⟨?_, a, b⟩
    have hread := read_column m hr hc prevY h0 h1
    by_cases hz : m.GetVecbAt prevY 0 = 0
    · simp [detectNewBoundaryChecked, detectNewBoundary, hread, hz,
        searchDownChecked_eq m hr hc _ prevY (by omega)]
    · simp [detectNewBoundaryChecked, detectNewBoundary, hread, hz,
        searchUpChecked_eq m hr hc _ prevY (by omega)]
  · intro buf s hb
    refine ⟨by simp [Mat.Region, hb], by simp [Mat.Region], detectBoundary_range buf s⟩

/-- A concrete instance of `boundary_estimate_in_image`: the column with boundary at row
100; a column of 479 rows, by contrast, makes the checked cold-start scan fail. -/
theorem boundary_estimate_in_image_witness :
    verticalScanUpChecked (boundaryColumn 100) = some 100
    ∧ detectNewBoundaryChecked (boundaryColumn 100) 96 = some 102
    ∧ verticalScanUpChecked { Rows := 479, Cols := 1, GetVecbAt := fun _ _ => 255 } = none := by
  have h := boundary_estimate_in_image (boundaryColumn 100) rfl (by decide)
  refine ⟨?_, ?_, by decide⟩
  · rw [h.1, verticalScanUp, verticalScanUpFrom_boundaryColumn 100 (by decide) 480 (by decide)]
  · rw [(h.2.2.2.1 96 (by decide) (by decide)).1]
    decide

/-! ## Theorems: the chosen row is a row of the image -/

/-- One frame on a 480-row image with a boundary in 0..479 keeps the state CRUISING or
IN_CURVE and the row in 0..479, and stores the boundary as previous boundary. -/
theorem lookaheadFrame_inv (fma : Bool) (s : LoopState) (b : Int)
    (hb0 : 0 ≤ b) (hb1 : b ≤ 479) (hi : s.inCurves = 0 ∨ s.inCurves = 1)
    (hr0 : 0 ≤ s.rowIndex) (hr1 : s.rowIndex ≤ 479) :
    ((lookaheadFrame fma 480 s b).inCurves = 0 ∨ (lookaheadFrame fma 480 s b).inCurves = 1)
    ∧ 0 ≤ (lookaheadFrame fma 480 s b).rowIndex
    ∧ (lookaheadFrame fma 480 s b).rowIndex ≤ 479
    ∧ (lookaheadFrame fma 480 s b).prevDetectedBoundary = b := by
  rcases hi with hc | hc
  · obtain ⟨e1, -, e3, e4⟩ := lookaheadFrame_cruising fma 480 s b hc
    rw [e1, e3, e4]
    refine ⟨by split <;> simp, ?_, ?_, rfl⟩
    · split
      · omega
      · split
        · split
          · rw [rampFormula_eq fma b (by assumption) (by assumption)]
            omega
          · omega
        · omega
    · split
      · omega
      · split
        · split
          · rw [rampFormula_eq fma b (by assumption) (by assumption)]
            omega
          · omega
        · omega
  · obtain ⟨e1, -, e3, e4⟩ := lookaheadFrame_inCurve fma 480 s b hc
    rw [e1, e3, e4]
    refine ⟨by split <;> simp, ?_, ?_, rfl⟩
    · split
      · omega
      · split <;> omega
    · split
      · omega
      · split <;> omega

/-- A run of frames with boundaries in 0..479 keeps the row in 0..479. -/
theorem lookaheadFrames_inv (fma : Bool) (bs : List Int) :
    ∀ s : LoopState, (∀ b ∈ bs, 0 ≤ b ∧ b ≤ 479) → (s.inCurves = 0 ∨ s.inCurves = 1) →
      0 ≤ s.rowIndex → s.rowIndex ≤ 479 →
      ((lookaheadFrames fma 480 s bs).inCurves = 0 ∨ (lookaheadFrames fma 480 s bs).inCurves = 1)
      ∧ 0 ≤ (lookaheadFrames fma 480 s bs).rowIndex
      ∧ (lookaheadFrames fma 480 s bs).rowIndex ≤ 479 := by
  induction bs with
  | nil => intro s _ hi h0 h1; exact ⟨hi, h0, h1⟩
  | cons b bs ih =>
    intro s hall hi h0 h1
    obtain ⟨hb0, hb1⟩ := hall b (List.mem_cons_self b bs)
    obtain ⟨a1, a2, a3, -⟩ := lookaheadFrame_inv fma s b hb0 hb1 hi h0 h1
    simpa [lookaheadFrames] using
      ih (lookaheadFrame fma 480 s b) (fun x hx => hall x (List.mem_cons_of_mem b hx)) a1 a2 a3

/-- A run of frames on 480-row images keeps the row and the stored boundary in 0..479. -/
theorem runFrames_inv (fma : Bool) (bufs : List Mat) :
    ∀ s : LoopState, (∀ buf ∈ bufs, buf.Rows = 480) → (s.inCurves = 0 ∨ s.inCurves = 1) →
      0 ≤ s.rowIndex → s.rowIndex ≤ 479 →
      (s.start = 1 ∨ (0 ≤ s.prevDetectedBoundary ∧ s.prevDetectedBoundary ≤ 479)) →
      0 ≤ (runFrames fma bufs s).rowIndex ∧ (runFrames fma bufs s).rowIndex ≤ 479 := by
  induction bufs with
  | nil => intro s _ _ h0 h1 _; exact ⟨h0, h1⟩
  | cons buf bufs ih =>
    intro s hall hi h0 h1 hp
    have hrows := hall buf (List.mem_cons_self buf bufs)
    obtain ⟨d0, d1⟩ := detectBoundary_range buf s hp
    obtain ⟨a1, a2, a3, a4⟩ := lookaheadFrame_inv fma s (detectBoundary buf s) d0 d1 hi h0 h1
    have hstep : (runFrame fma buf s).1 = lookaheadFrame fma 480 s (detectBoundary buf s) := by
      simp [runFrame, hrows]
    have := ih (runFrame fma buf s).1 (fun x hx => hall x (List.mem_cons_of_mem buf hx))
      (by rw [hstep]; exact a1) (by rw [hstep]; exact a2) (by rw [hstep]; exact a3)
      (by rw [hstep, a4]; exact Or.inr ⟨d0, d1⟩)
    simpa [runFrames] using this

/-- C14: from the initial state (CRUISING, row 0), after every sequence of frames on
480-row images whose boundary estimates all lie in 0..479, the chosen row lies in
`[0, 479]`; as the sequence is arbitrary this holds on every frame.  The same holds for
every sequence of 480-row images fed to the frame loop (their boundary estimates lie in
0..479), so the horizontal slice of rows `row .. row + 1` is inside the image. -/
theorem row_index_in_image (fma : Bool) (bs : List Int) (hbs : ∀ b ∈ bs, 0 ≤ b ∧ b ≤ 479) :
    0 ≤ (lookaheadFrames fma 480 LoopState.init bs).rowIndex
    ∧ (lookaheadFrames fma 480 LoopState.init bs).rowIndex ≤ 479
    ∧ (∀ bufs : List Mat, (∀ buf ∈ bufs, buf.Rows = 480) →
        0 ≤ (runFrames fma bufs LoopState.init).rowIndex
        ∧ (runFrames fma bufs LoopState.init).rowIndex + 1 ≤ 480) := by
  obtain ⟨-, a2, a3⟩ := lookaheadFrames_inv fma bs LoopState.init hbs (Or.inl rfl)
    (by decide) (by decide)
  refine ⟨a2, a3, ?_⟩
  intro bufs hall
  obtain ⟨b1, b2⟩ := runFrames_inv fma bufs LoopState.init hall (Or.inl rfl)
    (by decide) (by decide) (Or.inl rfl)
  exact ⟨b1, by omega⟩

/-- A concrete instance of `row_index_in_image`: a straight, a ramp, a curve and the way
back, ending at the bottom of the image. -/
theorem row_index_in_image_witness :
    0 ≤ (lookaheadFrames false 480 LoopState.init [50, 150, 210, 160, 140, 479]).rowIndex
    ∧ (lookaheadFrames false 480 LoopState.init [50, 150, 210, 160, 140, 479]).rowIndex ≤ 479 :=
  ⟨(row_index_in_image false [50, 150, 210, 160, 140, 479] (by decide)).1,
   (row_index_in_image false [50, 150, 210, 160, 140, 479] (by decide)).2.1⟩

/-! ## Theorems: frames without a run -/

/-- The cold-start scan depends on column 0 of the matrix only. -/
theorem verticalScanUpFrom_congr (m m' : Mat)
    (h : ∀ r : Int, m'.GetVecbAt r 0 = m.GetVecbAt r 0) (n : Nat) :
    verticalScanUpFrom m' n = verticalScanUpFrom m n := by
  induction n with
  | zero => rfl
  | succ n ih => simp [verticalScanUpFrom, h, ih]

/-- The downward loop depends on column 0 of the matrix only. -/
theorem searchDown_congr (m m' : Mat)
    (h : ∀ r : Int, m'.GetVecbAt r 0 = m.GetVecbAt r 0) (fuel : Nat) :
    ∀ y : Int, searchDown m' fuel y = searchDown m fuel y := by
  induction fuel with
  | zero => intro y; rfl
  | succ fuel ih => intro y; simp [searchDown, h, ih]

/-- The upward loop depends on column 0 of the matrix only. -/
theorem searchUp_congr (m m' : Mat)
    (h : ∀ r : Int, m'.GetVecbAt r 0 = m.GetVecbAt r 0) (fuel : Nat) :
    ∀ y : Int, searchUp m' fuel y = searchUp m fuel y := by
  induction fuel with
  | zero => intro y; rfl
  | succ fuel ih => intro y; simp [searchUp, h, ih]

/-- The boundary estimate of a frame depends on the centerline column of the image only. -/
theorem detectBoundary_congr (buf buf' : Mat) (s : LoopState)
    (hrows : buf'.Rows = buf.Rows) (hcols : buf'.Cols = buf.Cols)
    (h : ∀ r : Int, buf'.GetVecbAt r (Int.tdiv buf.Cols 2)
        = buf.GetVecbAt r (Int.tdiv buf.Cols 2)) :
    detectBoundary buf' s = detectBoundary buf s := by
  have hcol : ∀ r : Int,
      (buf'.Region (Int.tdiv buf.Cols 2) 0 (Int.tdiv buf.Cols 2 + 1) buf.Rows).GetVecbAt r 0
      = (buf.Region (Int.tdiv buf.Cols 2) 0 (Int.tdiv buf.Cols 2 + 1) buf.Rows).GetVecbAt r 0 := by
    intro r
    simp [Mat.Region, h]
  unfold detectBoundary
  rw [hrows, hcols]
  by_cases hs : s.start = 1
  · simp only [hs, if_true]
    exact verticalScanUpFrom_congr _ _ hcol 480
  · simp only [hs, if_false]
    unfold detectNewBoundary
    rw [hcol, searchDown_congr _ _ hcol, searchUp_congr _ _ hcol]

/-- C12, as stated, fails: on an image without any foreground sample no run is found and
nothing is published, yet the state changes.  On the first frame the state goes from the
initial one (boundary 0, CRUISING, row 0) to boundary 479, IN_CURVE, `curveStart` set,
row 479; on a later frame taken in CRUISING with boundary 100 and row 240 it goes to
boundary 478, IN_CURVE, `curveStart` set, row 478. -/
theorem skipped_frame_changes_state :
    runFrame false blackImage LoopState.init
      = ({ start := 0, prevDetectedBoundary := 479, currDetectedBoundary := 479,
           inCurves := 1, curveStart := 1, rowIndex := 479 }, [])
    ∧ runFrame false blackImage
        { start := 0, prevDetectedBoundary := 100, currDetectedBoundary := 100,
          inCurves := 0, curveStart := 0, rowIndex := 240 }
      = ({ start := 0, prevDetectedBoundary := 478, currDetectedBoundary := 478,
           inCurves := 1, curveStart := 1, rowIndex := 478 }, []) := by
  constructor <;> decide!

/-- C12, amended: a frame on which no qualifying run is found publishes nothing, but the
persistent state is updated on it as on every other frame: the state after the frame is
the one the selector computes from the boundary estimate of the frame, which becomes the
stored boundary, and it depends on the centerline column of the image only, not on whether
a run is found.  The image without foreground is skipped, the image with the same
centerline column and foreground elsewhere is published, and both leave the same state,
which is not the state before the frame. -/
theorem frame_state_ignores_rows (fma : Bool) (buf : Mat) (s : LoopState) :
    (runFrame fma buf s).1 = lookaheadFrame fma buf.Rows s (detectBoundary buf s)
    ∧ (runFrame fma buf s).1.prevDetectedBoundary = detectBoundary buf s
    ∧ (runFrame fma buf s).1.currDetectedBoundary = detectBoundary buf s
    ∧ (∀ buf' : Mat, buf'.Rows = buf.Rows → buf'.Cols = buf.Cols →
        (∀ r : Int, buf'.GetVecbAt r (Int.tdiv buf.Cols 2)
          = buf.GetVecbAt r (Int.tdiv buf.Cols 2)) →
        (runFrame fma buf' s).1 = (runFrame fma buf s).1)
    ∧ (runFrame fma blackImage LoopState.init).2 = []
    ∧ (runFrame fma centerLineImage LoopState.init).2 ≠ []
    ∧ (runFrame fma centerLineImage LoopState.init).1
        = (runFrame fma blackImage LoopState.init).1
    ∧ (runFrame fma blackImage LoopState.init).1 ≠ LoopState.init := by
  have hcurr : ∀ (h : Int) (t : LoopState) (b : Int),
      (lookaheadFrame fma h t b).currDetectedBoundary = b
      ∧ (lookaheadFrame fma h t b).prevDetectedBoundary = b := by
    intro h t b
    simp only [lookaheadFrame, selectRow, cruisingBranch, inCurveBranch]
    constructor <;> (repeat' split) <;> rfl
  have hsame : ∀ (b b' : Mat) (t : LoopState), b'.Rows = b.Rows → b'.Cols = b.Cols →
      (∀ r : Int, b'.GetVecbAt r (Int.tdiv b.Cols 2) = b.GetVecbAt r (Int.tdiv b.Cols 2)) →
      (runFrame fma b' t).1 = (runFrame fma b t).1 := by
    intro b b' t hrows hcols h
    simp only [runFrame, hrows, detectBoundary_congr b b' t hrows hcols h]
  refine ⟨rfl, (hcurr _ _ _).2, (hcurr _ _ _).1, fun b' => hsame buf b' s, ?_, ?_,
    hsame blackImage centerLineImage LoopState.init rfl rfl (fun _ => rfl), ?_⟩
  · cases fma <;> decide!
  · cases fma <;> decide!
  · cases fma <;> decide!

/-! ## Theorems: the same boundary on two consecutive frames -/

/-- C16, as stated, fails: from IN_CURVE (held row 200, previous boundary 200) the
boundary 140 fed on two consecutive frames gives row 240 on the first call, which leaves
the curve, and row 376 on the second. -/
theorem same_boundary_twice_changes_row :
    (lookaheadFrames false 480
      { start := 0, prevDetectedBoundary := 200, currDetectedBoundary := 200,
        inCurves := 1, curveStart := 0, rowIndex := 200 } [140]).rowIndex = 240
    ∧ (lookaheadFrames false 480
      { start := 0, prevDetectedBoundary := 200, currDetectedBoundary := 200,
        inCurves := 1, curveStart := 0, rowIndex := 200 } [140, 140]).rowIndex = 376 := by
  constructor <;> decide

/-- C16, amended: for every persisted state (CRUISING or IN_CURVE, any held row, any
`curveStart`, any previous boundary) and every boundary `B`, feeding `B` on two
consecutive frames makes the second call return the same row and the same
CRUISING/IN_CURVE state as the first, except when the first call leaves IN_CURVE with
`100 < B < 150`: the first call then returns the forced row 240 and the second, taken in
CRUISING, the ramp row `⌊3.4 * B - 100⌋` (243 at least) when `B ≥ 101`.  The `curveStart`
flag set by a frame that enters the curve is cleared by the second call; otherwise the
flag is the same after both calls. -/
theorem repeated_boundary (fma : Bool) (h : Int) (s : LoopState) (B : Int)
    (hi : s.inCurves = 0 ∨ s.inCurves = 1) :
    (¬ (s.inCurves = 1 ∧ 100 < B ∧ B < 150) →
      (lookaheadFrame fma h (lookaheadFrame fma h s B) B).rowIndex
          = (lookaheadFrame fma h s B).rowIndex
      ∧ (lookaheadFrame fma h (lookaheadFrame fma h s B) B).inCurves
          = (lookaheadFrame fma h s B).inCurves)
    ∧ (s.inCurves = 1 → 100 < B → B < 150 →
      (lookaheadFrame fma h s B).rowIndex = 240
      ∧ (lookaheadFrame fma h s B).inCurves = 0
      ∧ (lookaheadFrame fma h (lookaheadFrame fma h s B) B).inCurves = 0
      ∧ (lookaheadFrame fma h (lookaheadFrame fma h s B) B).rowIndex
          = ⌊(3.4 : ℚ) * (B : ℚ) - 100⌋
      ∧ 243 ≤ (lookaheadFrame fma h (lookaheadFrame fma h s B) B).rowIndex)
    ∧ (s.inCurves = 0 → 200 ≤ B →
      (lookaheadFrame fma h s B).curveStart = 1
      ∧ (lookaheadFrame fma h (lookaheadFrame fma h s B) B).curveStart = 0)
    ∧ (¬ (s.inCurves = 0 ∧ 200 ≤ B) →
      (lookaheadFrame fma h (lookaheadFrame fma h s B) B).curveStart
          = (lookaheadFrame fma h s B).curveStart) := by
  rcases hi with hc | hc
  · obtain ⟨e1, e2, e3, e4⟩ := lookaheadFrame_cruising fma h s B hc
    by_cases hB : 200 ≤ B
    · have h1 : (lookaheadFrame fma h s B).inCurves = 1 := by rw [e1]; simp [hB]
      obtain ⟨f1, f2, -, f4⟩ := lookaheadFrame_inCurve fma h (lookaheadFrame fma h s B) B h1
      have hn : ¬ B < 150 := by omega
      have hrow : (lookaheadFrame fma h s B).rowIndex = B := by rw [e4]; simp [hB]
      have hcs : (lookaheadFrame fma h s B).curveStart = 1 := by rw [e2]; simp [hB]
      refine ⟨fun _ => ⟨?_, ?_⟩, fun h1 => by omega, fun _ _ => ⟨hcs, f2⟩,
        fun hne => absurd ⟨hc, hB⟩ hne⟩
      · rw [f4, hrow, e3]
        simp [hn]
      · rw [f1, h1]
        simp [hn]
    · have h0 : (lookaheadFrame fma h s B).inCurves = 0 := by rw [e1]; simp [hB]
      obtain ⟨f1, f2, -, f4⟩ := lookaheadFrame_cruising fma h (lookaheadFrame fma h s B) B h0
      refine ⟨fun _ => ⟨?_, ?_⟩, fun h1 => by omega, fun _ hB' => absurd hB' hB, fun _ => ?_⟩
      · rw [f4, e4]
      · rw [f1, e1]
      · rw [f2]
        simp [hB]
  · obtain ⟨e1, e2, e3, e4⟩ := lookaheadFrame_inCurve fma h s B hc
    by_cases hB : B < 150
    · have h0 : (lookaheadFrame fma h s B).inCurves = 0 := by rw [e1]; simp [hB]
      have hrow : (lookaheadFrame fma h s B).rowIndex = 240 := by rw [e4]; simp [hB]
      obtain ⟨f1, f2, -, f4⟩ := lookaheadFrame_cruising fma h (lookaheadFrame fma h s B) B h0
      have hn : ¬ 200 ≤ B := by omega
      refine ⟨fun hne => ⟨?_, ?_⟩, fun _ h1 _ => ⟨hrow, h0, ?_, ?_, ?_⟩,
        fun h1 => by omega, fun _ => ?_⟩
      · have h3 : ¬ 100 < B := fun h3 => hne ⟨hc, h3, hB⟩
        rw [f4, hrow]
        simp [hn, h3]
      · rw [f1, h0]
        simp [hn]
      · rw [f1]
        simp [hn]
      · have h2 : B ≤ 170 := by omega
        rw [f4, ramp_floor]
        simp [hn, h1, h2, rampFormula_eq fma B h1 h2]
      · have h2 : B ≤ 170 := by omega
        rw [f4]
        simp only [hn, h1, h2, if_true, if_false, rampFormula_eq fma B h1 h2]
        omega
      · rw [f2, e2]
        simp [hn]
    · have h1 : (lookaheadFrame fma h s B).inCurves = 1 := by rw [e1]; simp [hB]
      obtain ⟨f1, f2, -, f4⟩ := lookaheadFrame_inCurve fma h (lookaheadFrame fma h s B) B h1
      refine ⟨fun _ => ⟨?_, ?_⟩, fun _ _ h3 => absurd h3 hB, fun h0 => by omega,
        fun _ => by rw [f2, e2]⟩
      · rw [f4, e2, e3]
        simp only [hB, if_false]
        have hrow := e4
        simp only [hB, if_false] at hrow
        by_cases hcond : (s.rowIndex < B ∧ B ≤ 240) ∨ s.prevDetectedBoundary + 20 < B
            ∨ (s.curveStart = 1 ∧ s.prevDetectedBoundary + 10 < B)
        · rw [if_pos hcond] at hrow
          rw [hrow]
          simp
        · rw [if_neg hcond] at hrow
          rw [hrow]
          have hn : ¬ (s.rowIndex < B ∧ B ≤ 240) := fun hx => hcond (Or.inl hx)
          simp [hn]
      · rw [f1, h1]
        simp [hB]

/-- A concrete instance of `repeated_boundary`: from IN_CURVE the boundary 140 gives the
forced row 240 and then the ramp row 376, while the boundary 180 gives the held row 200
twice. -/
theorem repeated_boundary_witness :
    (lookaheadFrame false 480 (lookaheadFrame false 480
      { start := 0, prevDetectedBoundary := 200, currDetectedBoundary := 200,
        inCurves := 1, curveStart := 0, rowIndex := 200 } 140) 140).rowIndex
      = ⌊(3.4 : ℚ) * ((140 : Int) : ℚ) - 100⌋
    ∧ (lookaheadFrame false 480 (lookaheadFrame false 480
      { start := 0, prevDetectedBoundary := 200, currDetectedBoundary := 200,
        inCurves := 1, curveStart := 0, rowIndex := 200 } 180) 180).rowIndex
      = (lookaheadFrame false 480
      { start := 0, prevDetectedBoundary := 200, currDetectedBoundary := 200,
        inCurves := 1, curveStart := 0, rowIndex := 200 } 180).rowIndex :=
  ⟨((repeated_boundary false 480 _ 140 (Or.inr rfl)).2.1 rfl (by decide) (by decide)).2.2.2.1,
   ((repeated_boundary false 480 _ 180 (Or.inr rfl)).1 (by decide)).1⟩

end Imaging

namespace Imaging

/-! ## Theorems: the list of runs is well formed -/

/-- Loop invariant of the column scan after `n` columns, on the order of the runs: the
stored runs are pairwise separated, each is followed by a background column and ends
before column `n - 1`, and an open run starts after the background column that follows the
last stored run. -/
theorem scanColumns_sep (m : Mat) (n : Nat) :
    (scanColumns m n).1.Pairwise (Separated m)
    ∧ (∀ d ∈ (scanColumns m n).1, m.GetVecbAt 0 (d.End + 1) = 0 ∧ d.End + 2 ≤ (n : Int))
    ∧ (∀ c, (scanColumns m n).2 = some c → ∀ d ∈ (scanColumns m n).1, d.End + 1 < c.Start) := by
  induction n with
  | zero => simp [scanColumns]
  | succ n ih =>
    obtain ⟨ih1, ih2, ih3⟩ := ih
    obtain ⟨-, inv2⟩ := scanColumns_inv m n
    have hmono : ∀ d ∈ (scanColumns m n).1,
        m.GetVecbAt 0 (d.End + 1) = 0 ∧ d.End + 2 ≤ ((n + 1 : Nat) : Int) := by
      intro d hd
      obtain ⟨a, b⟩ := ih2 d hd
      exact ⟨a, by push_cast; omega⟩
    rw [scanColumns_succ]
    unfold scanColumn
    by_cases hw : m.GetVecbAt 0 (n : Int) ≠ 0
    · simp only [hw, if_true, ne_eq, not_false_eq_true]
      cases hcur : (scanColumns m n).2 with
      | none =>
        refine ⟨ih1, hmono, ?_⟩
        intro c hc d hd
        simp only [Option.some.injEq] at hc
        subst hc
        have := (ih2 d hd).2
        simp only
        omega
      | some c0 =>
        refine ⟨ih1, hmono, ?_⟩
        intro c hc d hd
        simp only [Option.some.injEq] at hc
        subst hc
        exact ih3 c0 hcur d hd
    · simp only [hw, if_false]
      have hz : m.GetVecbAt 0 (n : Int) = 0 := by
        by_contra hne
        exact hw hne
      cases hcur : (scanColumns m n).2 with
      | none =>
        refine ⟨ih1, hmono, ?_⟩
        intro c hc
        simp at hc
      | some c0 =>
        obtain ⟨g1, g2, g3, -⟩ := inv2 c0 hcur
        have hsep := ih3 c0 hcur
        by_cases hlen : c0.End - c0.Start > 0
        · simp only [hlen, if_true]
          refine ⟨?_, ?_, ?_⟩
          · rw [List.pairwise_append]
            refine ⟨ih1, List.pairwise_singleton _ _, ?_⟩
            intro a ha b hb
            have hb' : b = c0 := by simpa using hb
            subst hb'
            exact ⟨hsep a ha, (ih2 a ha).1⟩
          · intro d hd
            rcases List.mem_append.mp hd with hd | hd
            · exact hmono d hd
            · have hd' : d = c0 := by simpa using hd
              subst hd'
              have he : d.End + 1 = (n : Int) := by omega
              refine ⟨by rw [he]; exact hz, by push_cast; omega⟩
          · intro c hc
            simp at hc
        · simp only [hlen, if_false]
          refine ⟨ih1, hmono, ?_⟩
          intro c hc
          simp at hc

/-- The runs returned by `getConsecutiveWhitePointsFromSlice` are pairwise separated. -/
theorem runs_are_separated (m : Mat) :
    (getConsecutiveWhitePointsFromSlice m).Pairwise (Separated m) := by
  obtain ⟨h1, h2, h3⟩ := scanColumns_sep m (m.Cols - 1).toNat
  unfold getConsecutiveWhitePointsFromSlice
  simp only
  cases hcur : (scanColumns m (m.Cols - 1).toNat).2 with
  | none => exact h1
  | some c0 =>
    simp only
    by_cases hlen : c0.End - c0.Start > 0
    · rw [if_pos hlen, List.pairwise_append]
      refine ⟨h1, List.pairwise_singleton _ _, ?_⟩
      intro a ha b hb
      have hb' : b = c0 := by simpa using hb
      subst hb'
      exact ⟨h3 b hcur a ha, (h2 a ha).1⟩
    · rw [if_neg hlen]
      exact h1

/-- C19: the list returned by `getConsecutiveWhitePointsFromSlice` is well formed.  Every
run has `0 ≤ Start < End ≤ Cols - 2` and all its columns `Start..End` are foreground; for
any two runs, the earlier one in the list starts further left, ends before the column left
of the start of the later one (`End < Start - 1`), and the column right after it is
background.  The scenario row gives the runs 100..179 and 300..309. -/
theorem runs_well_formed (m : Mat) :
    (∀ d ∈ getConsecutiveWhitePointsFromSlice m,
        0 ≤ d.Start ∧ d.Start < d.End ∧ d.End ≤ m.Cols - 2
        ∧ ∀ c : Int, d.Start ≤ c → c ≤ d.End → m.GetVecbAt 0 c ≠ 0)
    ∧ (getConsecutiveWhitePointsFromSlice m).Pairwise
        (fun a b => a.Start < b.Start ∧ a.End < b.Start - 1
          ∧ m.GetVecbAt 0 (a.End + 1) = 0)
    ∧ getConsecutiveWhitePointsFromSlice scenarioRow = [⟨100, 179⟩, ⟨300, 309⟩] := by
  refine ⟨?_, ?_, by decide!⟩
  · intro d hd
    obtain ⟨g1, g2, g3, g4⟩ := runs_are_foreground m d hd
    exact ⟨g1, g2, by omega, g4⟩
  · have hfg := runs_are_foreground m
    have hsep := runs_are_separated m
    generalize getConsecutiveWhitePointsFromSlice m = l at hfg hsep
    induction hsep with
    | nil => exact List.Pairwise.nil
    | @cons a l' hab _ ih =>
      refine List.Pairwise.cons ?_ (ih (fun d hd => hfg d (List.mem_cons_of_mem a hd)))
      intro b hb
      obtain ⟨s1, s2⟩ := hab b hb
      obtain ⟨-, g2, -, -⟩ := hfg a (List.mem_cons_self a l')
      exact ⟨by omega, by omega, s2⟩

/-! ## Theorems: the steering target lies on the lane -/

/-- A point published for a row of at most 2^32 columns is the middle of the selected
run, a foreground column between the ends of the run. -/
theorem trajectoryPoints_mem (m : Mat) (rowIndex : Int) (p : TrajectoryPoint)
    (hc : m.Cols ≤ 4294967296) (hp : p ∈ trajectoryPoints m rowIndex) :
    ∃ d : SliceDescriptor,
      getLongestConsecutiveWhiteSlice (getConsecutiveWhitePointsFromSlice m) = some d
      ∧ p.X = (d.Start + d.End) / 2
      ∧ d.Start ≤ p.X ∧ p.X ≤ d.End
      ∧ 0 ≤ p.X ∧ p.X ≤ m.Cols - 1
      ∧ m.GetVecbAt 0 p.X ≠ 0 := by
  unfold trajectoryPoints at hp
  cases hsel : getLongestConsecutiveWhiteSlice (getConsecutiveWhitePointsFromSlice m) with
  | none =>
    rw [hsel] at hp
    simp at hp
  | some d =>
    rw [hsel] at hp
    obtain ⟨g1, g2, g3, g4⟩ := runs_are_foreground m d (longest_mem _ d hsel)
    have hnn : 0 ≤ d.Start + d.End := by omega
    have e1 : Int.tdiv (d.Start + d.End) 2 = (d.Start + d.End) / 2 :=
      Int.tdiv_eq_ediv hnn (by norm_num)
    have e2 : toUint32 ((d.Start + d.End) / 2) = (d.Start + d.End) / 2 := by
      unfold toUint32
      apply Int.emod_eq_of_lt <;> omega
    have hX : p.X = (d.Start + d.End) / 2 := by
      have : p = ⟨toUint32 (middleX d), toUint32 rowIndex⟩ := by simpa using hp
      rw [this]
      simp only [middleX, e1, e2]
    refine ⟨d, rfl, hX, by omega, by omega, by omega, by omega, ?_⟩
    exact g4 p.X (by omega) (by omega)

/-- C20: whenever a trajectory point is produced for a row (of at most 2^32 columns, as
every image is), its x is `(Start + End) / 2` of the selected run and satisfies
`Start ≤ x ≤ End`; it is a column in `0 .. Cols - 1` and the sample of the row at that
column is foreground.  In the frame loop the point published for a frame lies on a
foreground sample of the chosen row of the image. -/
theorem target_on_lane (m : Mat) (rowIndex : Int) (p : TrajectoryPoint)
    (hc : m.Cols ≤ 4294967296) (hp : p ∈ trajectoryPoints m rowIndex) :
    (∃ d : SliceDescriptor,
      getLongestConsecutiveWhiteSlice (getConsecutiveWhitePointsFromSlice m) = some d
      ∧ p.X = (d.Start + d.End) / 2
      ∧ d.Start ≤ p.X ∧ p.X ≤ d.End)
    ∧ 0 ≤ p.X ∧ p.X ≤ m.Cols - 1
    ∧ m.GetVecbAt 0 p.X ≠ 0
    ∧ (∀ (fma : Bool) (buf : Mat) (s : LoopState) (q : TrajectoryPoint),
        buf.Cols ≤ 4294967296 → q ∈ (runFrame fma buf s).2 →
        0 ≤ q.X ∧ q.X ≤ buf.Cols - 1
        ∧ buf.GetVecbAt (runFrame fma buf s).1.rowIndex q.X ≠ 0) := by
  obtain ⟨d, h1, h2, h3, h4, h5, h6, h7⟩ := trajectoryPoints_mem m rowIndex p hc hp
  refine ⟨⟨d, h1, h2, h3, h4⟩, h5, h6, h7, ?_⟩
  intro fma buf s q hcols hq
  have hcols' : (buf.Region 0 (runFrame fma buf s).1.rowIndex buf.Cols
      ((runFrame fma buf s).1.rowIndex + 1)).Cols ≤ 4294967296 := by
    simp only [Mat.Region]
    omega
  obtain ⟨-, -, -, -, -, k5, k6, k7⟩ :=
    trajectoryPoints_mem _ (runFrame fma buf s).1.rowIndex q hcols' hq
  simp only [Mat.Region] at k6 k7
  refine ⟨k5, by omega, ?_⟩
  simpa using k7

/-- A concrete instance of `target_on_lane`: the scenario row, whose target column 139 is
foreground. -/
theorem target_on_lane_witness :
    (0 : Int) ≤ 139 ∧ (139 : Int) ≤ scenarioRow.Cols - 1
    ∧ scenarioRow.GetVecbAt 0 139 ≠ 0 :=
  ⟨(target_on_lane scenarioRow 240 ⟨139, 240⟩ (by decide) (by decide!)).2.1,
   (target_on_lane scenarioRow 240 ⟨139, 240⟩ (by decide) (by decide!)).2.2.1,
   (target_on_lane scenarioRow 240 ⟨139, 240⟩ (by decide) (by decide!)).2.2.2.1⟩

end Imaging

namespace Controller

/-! ## Theorems: malformed messages -/

/-- C18: a control cycle whose received message fails to parse, carries no camera output,
no trajectory, or an empty point list emits no controller output and leaves the whole
state of the loop as it was: the PID controller (integral, previous error, last control
signal, gains) and the tuning variables.  In general a cycle that emits nothing leaves the
state unchanged, while a cycle on a message with a first point does emit. -/
theorem malformed_message_is_skipped (s : RunState) :
    controlCycle s .unmarshalError = (s, none)
    ∧ controlCycle s (.sensorOutput none) = (s, none)
    ∧ controlCycle s (.sensorOutput (some { Trajectory := none })) = (s, none)
    ∧ controlCycle s (.sensorOutput (some { Trajectory := some { Points := [] } })) = (s, none)
    ∧ (∀ r : Received, (controlCycle s r).2 = none → (controlCycle s r).1 = s)
    ∧ (∀ (p : Point) (rest : List Point),
        (controlCycle s
          (.sensorOutput (some { Trajectory := some { Points := p :: rest } }))).2 ≠ none) := by
  refine ⟨rfl, rfl, rfl, rfl, ?_, ?_⟩
  · intro r hr
    cases r with
    | unmarshalError => rfl
    | sensorOutput cam =>
      cases cam with
      | none => rfl
      | some imagingData =>
        cases hT : imagingData.Trajectory with
        | none => simp [controlCycle, hT]
        | some trajectory =>
          cases hP : trajectory.Points with
          | nil => simp [controlCycle, hT, hP]
          | cons firstPoint rest =>
            simp [controlCycle, hT, hP, steer] at hr
  · intro p rest
    rw [controlCycle_point]
    simp

/-! ## Theorems: clamping of the tuning variables -/

end Controller

namespace Imaging

/-! ## Theorems: parity and movement of the warm update -/

/-- The frame function stores the boundary of the frame as previous boundary and clears
the `start` flag. -/
theorem lookaheadFrame_prev_start (fma : Bool) (h : Int) (s : LoopState) (b : Int) :
    (lookaheadFrame fma h s b).prevDetectedBoundary = b
    ∧ (lookaheadFrame fma h s b).start = (if s.start = 1 then 0 else s.start) := by
  simp only [lookaheadFrame, selectRow, cruisingBranch, inCurveBranch]
  constructor <;> (repeat' split) <;> rfl

/-- A warm update that can make one step makes at least one: started on a background row
at most 477 it returns a row further down, started on a foreground row at least 2 it
returns a row further up. -/
theorem detectNewBoundary_moves (m : Mat) (y : Int) :
    (m.GetVecbAt y 0 = 0 → y ≤ 477 → y < detectNewBoundary m y)
    ∧ (m.GetVecbAt y 0 ≠ 0 → 2 ≤ y → detectNewBoundary m y < y) := by
  constructor
  · intro hz hy
    obtain ⟨k, e1, -, -, e4⟩ := searchDown_spec m (479 - y).toNat y (by omega)
    have hres : detectNewBoundary m y = y + 2 * (k : Int) := by
      simp [detectNewBoundary, hz, e1]
    rw [hres]
    rcases e4 with ⟨a1, -⟩ | ⟨-, a2⟩ <;> omega
  · intro hz hy
    obtain ⟨k, e1, -, -, e4⟩ := searchUp_spec m y.toNat y (by omega)
    have hres : detectNewBoundary m y = y - 2 * (k : Int) := by
      simp [detectNewBoundary, hz, e1]
    rw [hres]
    rcases e4 with ⟨a1, -⟩ | ⟨-, a2⟩ <;> omega

/-- After the first frame every frame keeps the `start` flag cleared, the stored boundary in
0..479 and its parity. -/
theorem runFrames_parity (fma : Bool) (bufs : List Mat) :
    ∀ s : LoopState, s.start = 0 → 0 ≤ s.prevDetectedBoundary →
      s.prevDetectedBoundary ≤ 479 →
      (runFrames fma bufs s).prevDetectedBoundary % 2 = s.prevDetectedBoundary % 2 := by
  induction bufs with
  | nil => intro s _ _ _; rfl
  | cons buf bufs ih =>
    intro s hs h0 h1
    have hne : ¬ s.start = 1 := by omega
    have hdet : detectBoundary buf s
        = detectNewBoundary
            (buf.Region (Int.tdiv buf.Cols 2) 0 (Int.tdiv buf.Cols 2 + 1) buf.Rows)
            s.prevDetectedBoundary := by
      simp [detectBoundary, hne]
    obtain ⟨r0, r1, r2⟩ := detectNewBoundary_range
      (buf.Region (Int.tdiv buf.Cols 2) 0 (Int.tdiv buf.Cols 2 + 1) buf.Rows)
      s.prevDetectedBoundary h0 h1
    obtain ⟨p1, p2⟩ := lookaheadFrame_prev_start fma buf.Rows s (detectBoundary buf s)
    have hstep : (runFrame fma buf s).1
        = lookaheadFrame fma buf.Rows s (detectBoundary buf s) := rfl
    have := ih (runFrame fma buf s).1
      (by rw [hstep, p2]; simp [hne, hs])
      (by rw [hstep, p1, hdet]; exact r0)
      (by rw [hstep, p1, hdet]; exact r1)
    have hfold : runFrames fma (buf :: bufs) s = runFrames fma bufs (runFrame fma buf s).1 := by
      simp [runFrames]
    rw [hfold, this, hstep, p1, hdet, r2]

/-- C21: for every centerline column and every `prevY` in 0..479 `detectNewBoundary`
returns a row of the parity of `prevY`.  The returned row differs from `prevY` whenever one
2-row step in the search direction stays inside 0..479: from a background row at most 477
the result lies further down, from a foreground row at least 2 it lies further up; only
where no step fits (background row 478 or 479, foreground row 0 or 1) is `prevY` returned.
In the frame loop every boundary estimate after the cold start has the parity of the
cold-start row. -/
theorem warm_update_keeps_parity_and_moves (m : Mat) (prevY : Int)
    (h0 : 0 ≤ prevY) (h1 : prevY ≤ 479) :
    detectNewBoundary m prevY % 2 = prevY % 2
    ∧ (m.GetVecbAt prevY 0 = 0 → prevY ≤ 477 →
        detectNewBoundary m prevY ≠ prevY ∧ prevY < detectNewBoundary m prevY)
    ∧ (m.GetVecbAt prevY 0 ≠ 0 → 2 ≤ prevY →
        detectNewBoundary m prevY ≠ prevY ∧ detectNewBoundary m prevY < prevY)
    ∧ (m.GetVecbAt prevY 0 = 0 → 477 < prevY → detectNewBoundary m prevY = prevY)
    ∧ (m.GetVecbAt prevY 0 ≠ 0 → prevY < 2 → detectNewBoundary m prevY = prevY)
    ∧ (∀ (fma : Bool) (buf : Mat) (bufs : List Mat),
        (runFrames fma (buf :: bufs) LoopState.init).prevDetectedBoundary % 2
          = verticalScanUp
              (buf.Region (Int.tdiv buf.Cols 2) 0 (Int.tdiv buf.Cols 2 + 1) buf.Rows) % 2) := by
  obtain ⟨-, -, r2⟩ := detectNewBoundary_range m prevY h0 h1
  obtain ⟨m1, m2⟩ := detectNewBoundary_moves m prevY
  refine ⟨r2, ?_, ?_, ?_, ?_, ?_⟩
  · intro hz hy
    have := m1 hz hy
    exact ⟨by omega, this⟩
  · intro hz hy
    have := m2 hz hy
    exact ⟨by omega, this⟩
  · intro hz hy
    obtain ⟨k, e1, e2, -, -⟩ := searchDown_spec m (479 - prevY).toNat prevY (by omega)
    have hres : detectNewBoundary m prevY = prevY + 2 * (k : Int) := by
      simp [detectNewBoundary, hz, e1]
    rw [hres]
    by_cases hk : 1 ≤ k
    · have := e2 hk
      omega
    · omega
  · intro hz hy
    obtain ⟨k, e1, e2, -, -⟩ := searchUp_spec m prevY.toNat prevY (by omega)
    have hres : detectNewBoundary m prevY = prevY - 2 * (k : Int) := by
      simp [detectNewBoundary, hz, e1]
    rw [hres]
    by_cases hk : 1 ≤ k
    · have := e2 hk
      omega
    · omega
  · intro fma buf bufs
    have hdet : detectBoundary buf LoopState.init
        = verticalScanUp
            (buf.Region (Int.tdiv buf.Cols 2) 0 (Int.tdiv buf.Cols 2 + 1) buf.Rows) := by
      simp [detectBoundary, LoopState.init]
    obtain ⟨v0, v1⟩ := verticalScanUp_range
      (buf.Region (Int.tdiv buf.Cols 2) 0 (Int.tdiv buf.Cols 2 + 1) buf.Rows)
    obtain ⟨p1, p2⟩ := lookaheadFrame_prev_start fma buf.Rows LoopState.init
      (detectBoundary buf LoopState.init)
    have hstep : (runFrame fma buf LoopState.init).1
        = lookaheadFrame fma buf.Rows LoopState.init (detectBoundary buf LoopState.init) := rfl
    have hfold : runFrames fma (buf :: bufs) LoopState.init
        = runFrames fma bufs (runFrame fma buf LoopState.init).1 := by
      simp [runFrames]
    rw [hfold, runFrames_parity fma bufs _
      (by rw [hstep, p2]; simp [LoopState.init])
      (by rw [hstep, p1, hdet]; exact v0)
      (by rw [hstep, p1, hdet]; exact v1), hstep, p1, hdet]

/-- A concrete instance of `warm_update_keeps_parity_and_moves`: boundary at row 100, warm
update from the background row 96, which moves down to row 102. -/
theorem warm_update_keeps_parity_and_moves_witness :
    detectNewBoundary (boundaryColumn 100) 96 % 2 = 96 % 2
    ∧ detectNewBoundary (boundaryColumn 100) 96 ≠ 96
    ∧ detectNewBoundary (boundaryColumn 100) 96 = 102 :=
  ⟨(warm_update_keeps_parity_and_moves (boundaryColumn 100) 96 (by decide) (by decide)).1,
   ((warm_update_keeps_parity_and_moves (boundaryColumn 100) 96 (by decide) (by decide)).2.1
      rfl (by decide)).1,
   by decide⟩

/-! ## Theorems: the cruising row as a function of the boundary -/

/-- The row chosen in CRUISING on a 480-row image for a boundary below 200: 240 up to
`B = 100`, `(17 * B - 500) / 5` on the ramp, 478 above it. -/
theorem cruising_row (fma : Bool) (s : LoopState) (B : Int) (hc : s.inCurves = 0)
    (hB : B ≤ 199) :
    (lookaheadFrame fma 480 s B).rowIndex
      = (if 100 < B then (if B ≤ 170 then (17 * B - 500) / 5 else 478) else 240) := by
  rw [(lookaheadFrame_cruising fma 480 s B hc).2.2.2]
  have h1 : ¬ 200 ≤ B := by omega
  rw [if_neg h1]
  by_cases h2 : 100 < B
  · by_cases h3 : B ≤ 170
    · simp only [h2, h3, if_true, rampFormula_eq fma B h2 h3]
    · simp [h2, h3]
  · simp [h2]

/-- C22: in state CRUISING on a 480-row image the chosen row is a non-decreasing function
of the boundary over `0 ≤ B ≤ 199`.  It is 240 for `B ≤ 100` and 478 for `170 ≤ B ≤ 199`;
from one boundary to the next it never falls and rises by at most 4 rows; and there is no
jump at the ends of the ramp: the ramp formula itself gives 240 at `B = 100`, the step from
100 to 101 is 3 rows, and the row is 478 at 170 and at 171. -/
theorem cruising_row_monotone (fma : Bool) (s : LoopState) (B1 B2 : Int)
    (hc : s.inCurves = 0) (h0 : 0 ≤ B1) (h12 : B1 ≤ B2) (h2 : B2 ≤ 199) :
    (lookaheadFrame fma 480 s B1).rowIndex ≤ (lookaheadFrame fma 480 s B2).rowIndex
    ∧ (B1 ≤ 100 → (lookaheadFrame fma 480 s B1).rowIndex = 240)
    ∧ (170 ≤ B1 → (lookaheadFrame fma 480 s B1).rowIndex = 478)
    ∧ (B2 = B1 + 1 →
        (lookaheadFrame fma 480 s B2).rowIndex - (lookaheadFrame fma 480 s B1).rowIndex ≤ 4)
    ∧ ⌊(3.4 : ℚ) * ((100 : Int) : ℚ) - 100⌋ = 240
    ∧ (lookaheadFrame fma 480 s 101).rowIndex - (lookaheadFrame fma 480 s 100).rowIndex = 3
    ∧ (lookaheadFrame fma 480 s 170).rowIndex = 478
    ∧ (lookaheadFrame fma 480 s 171).rowIndex = 478 := by
  have e1 := cruising_row fma s B1 hc (by omega)
  have e2 := cruising_row fma s B2 hc h2
  have e100 := cruising_row fma s 100 hc (by decide)
  have e101 := cruising_row fma s 101 hc (by decide)
  have e170 := cruising_row fma s 170 hc (by decide)
  have e171 := cruising_row fma s 171 hc (by decide)
  norm_num at e100 e101 e170 e171
  refine ⟨?_, ?_, ?_, ?_, ?_, by rw [e100, e101]; decide, e170, e171⟩
  · rw [e1, e2]
    split_ifs <;> omega
  · intro h
    rw [e1, if_neg (by omega)]
  · intro h
    rw [e1]
    split_ifs <;> omega
  · intro h
    rw [e1, e2]
    split_ifs <;> omega
  · rw [ramp_floor]
    decide

/-- A concrete instance of `cruising_row_monotone`: boundaries 120 and 121 give the rows
308 and 311. -/
theorem cruising_row_monotone_witness :
    (lookaheadFrame false 480 LoopState.init 120).rowIndex
      ≤ (lookaheadFrame false 480 LoopState.init 121).rowIndex
    ∧ (lookaheadFrame false 480 LoopState.init 121).rowIndex
      - (lookaheadFrame false 480 LoopState.init 120).rowIndex ≤ 4
    ∧ (lookaheadFrame false 480 LoopState.init 120).rowIndex = 308
    ∧ (lookaheadFrame false 480 LoopState.init 121).rowIndex = 311 :=
  ⟨(cruising_row_monotone false LoopState.init 120 121 rfl (by decide) (by decide)
      (by decide)).1,
   (cruising_row_monotone false LoopState.init 120 121 rfl (by decide) (by decide)
      (by decide)).2.2.2.1 (by decide),
   by decide, by decide⟩

end Imaging

namespace Imaging

/-! ## Theorems: the reported runs are maximal inside the scanned columns -/

/-- Loop invariant of the column scan after `n` columns, on the left end of the runs: a
stored or open run starts at column 0 or right after a background column, and when no run
is open the last scanned column, if any, is background. -/
theorem scanColumns_left (m : Mat) (n : Nat) :
    (∀ d ∈ (scanColumns m n).1, d.Start = 0 ∨ m.GetVecbAt 0 (d.Start - 1) = 0)
    ∧ (∀ c, (scanColumns m n).2 = some c → c.Start = 0 ∨ m.GetVecbAt 0 (c.Start - 1) = 0)
    ∧ ((scanColumns m n).2 = none → n = 0 ∨ m.GetVecbAt 0 ((n : Int) - 1) = 0) := by
  induction n with
  | zero => simp [scanColumns]
  | succ n ih =>
    obtain ⟨ih1, ih2, ih3⟩ := ih
    rw [scanColumns_succ]
    unfold scanColumn
    by_cases hw : m.GetVecbAt 0 (n : Int) ≠ 0
    · simp only [hw, if_true, ne_eq, not_false_eq_true]
      cases hcur : (scanColumns m n).2 with
      | none =>
        refine ⟨ih1, ?_, ?_⟩
        · intro c hc
          simp only [Option.some.injEq] at hc
          subst hc
          rcases ih3 hcur with h0 | h0
          · left
            simp [h0]
          · right
            exact h0
        · intro hc
          simp at hc
      | some c0 =>
        refine ⟨ih1, ?_, ?_⟩
        · intro c hc
          simp only [Option.some.injEq] at hc
          subst hc
          exact ih2 c0 hcur
        · intro hc
          simp at hc
    · simp only [hw, if_false]
      have hz : m.GetVecbAt 0 (n : Int) = 0 := by
        by_contra hne
        exact hw hne
      have hlast : (n + 1 = 0) ∨ m.GetVecbAt 0 (((n + 1 : Nat) : Int) - 1) = 0 := by
        right
        have : (((n + 1 : Nat) : Int) - 1) = (n : Int) := by push_cast; ring
        rw [this]
        exact hz
      cases hcur : (scanColumns m n).2 with
      | none =>
        refine ⟨ih1, ?_, fun _ => hlast⟩
        intro c hc
        simp at hc
      | some c0 =>
        refine ⟨?_, ?_, fun _ => hlast⟩
        · intro d hd
          simp only at hd
          by_cases hlen : c0.End - c0.Start > 0
          · rw [if_pos hlen] at hd
            rcases List.mem_append.mp hd with hd | hd
            · exact ih1 d hd
            · have hd' : d = c0 := by simpa using hd
              subst hd'
              exact ih2 d hcur
          · rw [if_neg hlen] at hd
            exact ih1 d hd
        · intro c hc
          simp at hc

/-- Every reported run is maximal to the left, and maximal to the right when it ends
before column `Cols - 2`: the column before `Start`, if there is one, is background, and
the column after `End` is background. -/
theorem runs_are_maximal (m : Mat) :
    ∀ d ∈ getConsecutiveWhitePointsFromSlice m,
      (d.Start = 0 ∨ m.GetVecbAt 0 (d.Start - 1) = 0)
      ∧ (d.End < m.Cols - 2 → m.GetVecbAt 0 (d.End + 1) = 0) := by
  obtain ⟨l1, l2, -⟩ := scanColumns_left m (m.Cols - 1).toNat
  obtain ⟨-, r2, -⟩ := scanColumns_sep m (m.Cols - 1).toNat
  obtain ⟨-, inv2⟩ := scanColumns_inv m (m.Cols - 1).toNat
  intro d hd
  unfold getConsecutiveWhitePointsFromSlice at hd
  simp only at hd
  cases hcur : (scanColumns m (m.Cols - 1).toNat).2 with
  | none =>
    rw [hcur] at hd
    exact ⟨l1 d hd, fun _ => (r2 d hd).1⟩
  | some c0 =>
    rw [hcur] at hd
    simp only at hd
    obtain ⟨g1, g2, g3, -⟩ := inv2 c0 hcur
    by_cases hlen : c0.End - c0.Start > 0
    · rw [if_pos hlen] at hd
      rcases List.mem_append.mp hd with hd | hd
      · exact ⟨l1 d hd, fun _ => (r2 d hd).1⟩
      · have hd' : d = c0 := by simpa using hd
        subst hd'
        refine ⟨l2 d hcur, fun hlt => ?_⟩
        omega
    · rw [if_neg hlen] at hd
      exact ⟨l1 d hd, fun _ => (r2 d hd).1⟩

/-- C5, amended: whenever a run `d` is selected on a row, the emitted x is
`(d.Start + d.End) / 2` (as a `uint32`, which changes nothing on a row of at most 2^32
columns), where `d` is a closed interval of foreground columns: `0 ≤ Start < End ≤ Cols - 2`,
every column from `Start` to `End`, `End` included, is foreground, the column before
`Start`, if there is one, is background, and when the run ends before column `Cols - 2`
the column after `End` is background, so that `End` is then the last foreground column of
the run and not one past it.  Where a run that reaches column `Cols - 2` ends in the row
is not part of the statement.  On the scenario row the selected run is columns 100..179
(`Start = 100`, `End = 179`) and the emitted x is 139. -/
theorem midpoint_of_closed_run (m : Mat) (rowIndex : Int) (d : SliceDescriptor)
    (h : getLongestConsecutiveWhiteSlice (getConsecutiveWhitePointsFromSlice m) = some d) :
    trajectoryPoints m rowIndex
        = [⟨toUint32 (Int.tdiv (d.Start + d.End) 2), toUint32 rowIndex⟩]
    ∧ (m.Cols ≤ 4294967296 →
        trajectoryPoints m rowIndex = [⟨(d.Start + d.End) / 2, toUint32 rowIndex⟩])
    ∧ 0 ≤ d.Start ∧ d.Start < d.End ∧ d.End ≤ m.Cols - 2
    ∧ (∀ c : Int, d.Start ≤ c → c ≤ d.End → m.GetVecbAt 0 c ≠ 0)
    ∧ (d.Start = 0 ∨ m.GetVecbAt 0 (d.Start - 1) = 0)
    ∧ (d.End < m.Cols - 2 → m.GetVecbAt 0 (d.End + 1) = 0)
    ∧ getLongestConsecutiveWhiteSlice (getConsecutiveWhitePointsFromSlice scenarioRow)
        = some ⟨100, 179⟩
    ∧ trajectoryPoints scenarioRow 240 = [⟨139, 240⟩] := by
  obtain ⟨g1, g2, g3, g4⟩ := runs_are_foreground m d (longest_mem _ d h)
  obtain ⟨k1, k2⟩ := runs_are_maximal m d (longest_mem _ d h)
  have hpts : trajectoryPoints m rowIndex
      = [⟨toUint32 (Int.tdiv (d.Start + d.End) 2), toUint32 rowIndex⟩] := by
    simp [trajectoryPoints, h, middleX]
  refine ⟨hpts, ?_, g1, g2, by omega, g4, k1, k2, by decide!, by decide!⟩
  intro hc
  rw [hpts]
  have hnn : 0 ≤ d.Start + d.End := by omega
  have h2 : (0 : Int) ≤ 2 := by norm_num
  have e1 : Int.tdiv (d.Start + d.End) 2 = (d.Start + d.End) / 2 :=
    Int.tdiv_eq_ediv hnn h2
  have e2 : toUint32 ((d.Start + d.End) / 2) = (d.Start + d.End) / 2 := by
    unfold toUint32
    apply Int.emod_eq_of_lt <;> omega
  rw [e1, e2]

/-- A concrete instance of `midpoint_of_closed_run`: the scenario row, scanned as row 240;
its selected run ends at column 179 and column 180 is background. -/
theorem midpoint_of_closed_run_witness :
    trajectoryPoints scenarioRow 240
      = [⟨toUint32 (Int.tdiv ((100 : Int) + 179) 2), toUint32 240⟩]
    ∧ scenarioRow.GetVecbAt 0 (179 + 1) = 0 :=
  ⟨(midpoint_of_closed_run scenarioRow 240 ⟨100, 179⟩ (by decide!)).1,
   (midpoint_of_closed_run scenarioRow 240 ⟨100, 179⟩ (by decide!)).2.2.2.2.2.2.2.1
     (by decide)⟩

end Imaging

namespace Controller

/-! ## Theorems: the two stores of a key handler -/

end Controller
